import Mathlib

/-!
# Dense linear systems: Gaussian elimination and Cramer's rule

A shallow embedding of `Gauss.go` and `Kramer.go`.  `float64` is modelled by exact
rational arithmetic (`ℚ`), slices by lists, and every slice access is checked: an index
out of range is the fault `Err.indexOutOfRange` (a Go run-time panic).  The errors the
solvers return through their `error` result are the first three constructors of `Err`.
-/

namespace SLE

/-- Outcomes other than a value: the three errors returned by the solvers, and the
faults of the embedding (a slice index out of range, a division by zero, which exact
arithmetic cannot represent, and the recursion budget of `determinant`). -/
inductive Err
  | dimensionMismatch
  | singularMatrix
  | noUniqueSolution
  | indexOutOfRange
  | divisionByZero
  | recursionLimit
  deriving DecidableEq, Repr

/-- A `[]float64`. -/
abbrev Vec := List ℚ

/-- A `[][]float64`: a slice of rows. -/
abbrev Mat := List (List ℚ)

/-- Checked read `v[i]`. -/
def readAt {α : Type} (v : List α) (i : Nat) : Except Err α :=
  match v.get? i with
  | some x => Except.ok x
  | none => Except.error Err.indexOutOfRange

/-- Checked write `v[i] = x`. -/
def writeAt {α : Type} (v : List α) (i : Nat) (x : α) : Except Err (List α) :=
  if i < v.length then Except.ok (v.set i x) else Except.error Err.indexOutOfRange

/-- Checked read `m[r][c]`. -/
def getEntry (m : Mat) (r c : Nat) : Except Err ℚ :=
  match readAt m r with
  | Except.ok row => readAt row c
  | Except.error e => Except.error e

/-- Checked write `m[r][c] = x`. -/
def setEntry (m : Mat) (r c : Nat) (x : ℚ) : Except Err Mat :=
  match readAt m r with
  | Except.ok row =>
    match writeAt row c x with
    | Except.ok row1 => writeAt m r row1
    | Except.error e => Except.error e
  | Except.error e => Except.error e

/-- Division `x / d` with the divisor checked. -/
def divide (x d : ℚ) : Except Err ℚ :=
  if d = 0 then Except.error Err.divisionByZero else Except.ok (x / d)

/-- The loop `for k := lo; k < hi; k++ { s = body(s, k) }`, stopping at the first failure. -/
def forLoop {σ : Type} (lo hi : Nat) (body : σ → Nat → Except Err σ) (s : σ) : Except Err σ :=
  (List.range' lo (hi - lo)).foldlM body s

/-- Go's builtin `copy(dst, src)`: the first `min(len(dst), len(src))` elements of `dst`
are overwritten by those of `src`. -/
def copySlice (dst src : Vec) : Vec :=
  src.take dst.length ++ dst.drop src.length

/-- The threshold `1e-10` of the degeneracy check. -/
def pivotEps : ℚ := 1 / 10 ^ 10

/-! ## Gauss.go -/

/-- Lines 18-24 / 81-87: the working matrix `ab`, row `i` being a fresh slice of length
`n+1` that receives `copy(ab[i][:n], a[i])` and then `ab[i][n] = b[i]`. -/
def augment (a : Mat) (b : Vec) (n : Nat) : Except Err Mat :=
  forLoop 0 n (fun ab i => do
    let ab ← writeAt ab i (List.replicate (n + 1) (0 : ℚ))
    let row ← readAt ab i
    let src ← readAt a i
    let ab ← writeAt ab i (copySlice (row.take n) src ++ row.drop n)
    let bi ← readAt b i
    setEntry ab i n bi) (List.replicate n [])

/-- Lines 29-34 / 92-97: the pivot search in column `i`, rows `i+1 .. n-1`, from `maxRow = i`. -/
def findPivot (ab : Mat) (n i : Nat) : Except Err Nat :=
  forLoop (i + 1) n (fun maxRow j => do
    let x ← getEntry ab j i
    let y ← getEntry ab maxRow i
    pure (if |x| > |y| then j else maxRow)) i

/-- Lines 36 / 99: `ab[i], ab[maxRow] = ab[maxRow], ab[i]`. -/
def swapRows (ab : Mat) (i maxRow : Nat) : Except Err Mat := do
  let rm ← readAt ab maxRow
  let ri ← readAt ab i
  let ab ← writeAt ab i rm
  writeAt ab maxRow ri

/-- Lines 44-46 / 107-109: `for j := i; j <= n; j++ { ab[i][j] /= divisor }`. -/
def normalizeRow (ab : Mat) (n i : Nat) (divisor : ℚ) : Except Err Mat :=
  forLoop i (n + 1) (fun ab j => do
    let x ← getEntry ab i j
    let q ← divide x divisor
    setEntry ab i j q) ab

/-- Lines 54-57 / 113-116: the elimination task of row `j` in pivot step `i`. -/
def eliminateRow (n i : Nat) (ab : Mat) (j : Nat) : Except Err Mat := do
  let factor ← getEntry ab j i
  forLoop i (n + 1) (fun ab k => do
    let x ← getEntry ab j k
    let p ← getEntry ab i k
    setEntry ab j k (x - factor * p)) ab

/-- Lines 29-46 / 92-109: pivot search, row swap, degeneracy check and normalisation of
pivot step `i`. -/
def pivotRow (ab : Mat) (n i : Nat) : Except Err Mat := do
  let maxRow ← findPivot ab n i
  let ab ← swapRows ab i maxRow
  let divisor ← getEntry ab i i
  if |divisor| < pivotEps then
    throw Err.singularMatrix
  normalizeRow ab n i divisor

/-- Lines 90-119: pivot step `i` of `regularSLAU`; the rows `i+1 .. n-1` are eliminated in
index order. -/
def regularStep (n : Nat) (ab : Mat) (i : Nat) : Except Err Mat := do
  let ab ← pivotRow ab n i
  forLoop (i + 1) n (eliminateRow n i) ab

/-- Lines 27-61: pivot step `i` of `parallelSLAU`; the goroutines of the step, one per row,
are run one after the other in the order `order`, and `wg.Wait()` ends the step. -/
def parallelStep (n : Nat) (order : List Nat) (ab : Mat) (i : Nat) : Except Err Mat := do
  let ab ← pivotRow ab n i
  order.foldlM (eliminateRow n i) ab

/-- Lines 64-70 / 122-128: back substitution, `i = n-1` down to `0`. -/
def backSubstitute (ab : Mat) (n : Nat) : Except Err Vec :=
  (List.range n).reverse.foldlM (fun x i => do
    let v ← getEntry ab i n
    let x ← writeAt x i v
    forLoop (i + 1) n (fun x j => do
      let xi ← readAt x i
      let c ← getEntry ab i j
      let xj ← readAt x j
      writeAt x i (xi - c * xj)) x) (List.replicate n (0 : ℚ))

/-- The function `regularSLAU` of Gauss.go. -/
def regularSLAU (a : Mat) (b : Vec) : Except Err Vec :=
  let n := a.length
  if n ≠ b.length then
    Except.error Err.dimensionMismatch
  else do
    let ab ← augment a b n
    let ab ← forLoop 0 n (regularStep n) ab
    backSubstitute ab n

/-- The function `parallelSLAU` of Gauss.go; `sched i` is the order in which the
elimination goroutines of pivot step `i` run. -/
def parallelSLAU (sched : Nat → List Nat) (a : Mat) (b : Vec) : Except Err Vec :=
  let n := a.length
  if n ≠ b.length then
    Except.error Err.dimensionMismatch
  else do
    let ab ← augment a b n
    let ab ← forLoop 0 n (fun ab i => parallelStep n (sched i) ab i) ab
    backSubstitute ab n

/-! ## Kramer.go -/

/-- Lines 33-41: `copyMatrix`. -/
def copyMatrix (matrix : Mat) : Except Err Mat :=
  let n := matrix.length
  forLoop 0 n (fun newMatrix i => do
    let src ← readAt matrix i
    writeAt newMatrix i (copySlice (List.replicate n (0 : ℚ)) src)) (List.replicate n [])

/-- Lines 55-61: the minor of the expansion along row 0 at column `i`: entry `(j, k)` is
`matrix[j+1][(k+i+1)%n]`. -/
def submatrix (matrix : Mat) (n i : Nat) : Except Err Mat :=
  forLoop 0 (n - 1) (fun sub j => do
    let sub ← writeAt sub j (List.replicate (n - 1) (0 : ℚ))
    forLoop 0 (n - 1) (fun sub k => do
      let v ← getEntry matrix (j + 1) ((k + i + 1) % n)
      setEntry sub j k v) sub) (List.replicate (n - 1) [])

/-- Lines 44-65: the body of `determinant`, with the recursive call as a parameter. -/
def determinantBody (recur : Mat → Except Err ℚ) (matrix : Mat) : Except Err ℚ :=
  let n := matrix.length
  if n = 1 then
    getEntry matrix 0 0
  else if n = 2 then do
    let m00 ← getEntry matrix 0 0
    let m11 ← getEntry matrix 1 1
    let m01 ← getEntry matrix 0 1
    let m10 ← getEntry matrix 1 0
    pure (m00 * m11 - m01 * m10)
  else
    forLoop 0 n (fun det i => do
      let sub ← submatrix matrix n i
      let m0i ← getEntry matrix 0 i
      let d ← recur sub
      pure (det + (-1) ^ i * m0i * d)) 0

/-- The recursion of `determinant`, unfolded at most `fuel` times. -/
def determinantAux : Nat → Mat → Except Err ℚ
  | 0 => determinantBody (fun _ => Except.error Err.recursionLimit)
  | fuel + 1 => determinantBody (determinantAux fuel)

/-- The function `determinant` of Kramer.go: each recursive call is on a matrix with one
row less, so `len(matrix)` unfoldings suffice. -/
def determinant (matrix : Mat) : Except Err ℚ :=
  determinantAux matrix.length matrix

/-- Lines 78-82 / 104-108: the task of index `i`: `Ai` is a copy of `A` with column `i`
overwritten by `b`, and the entry is `determinant(Ai) / detA`. -/
def cramerEntry (A : Mat) (b : Vec) (n : Nat) (detA : ℚ) (i : Nat) : Except Err ℚ := do
  let Ai ← copyMatrix A
  let Ai ← forLoop 0 n (fun Ai j => do
    let bj ← readAt b j
    setEntry Ai j i bj) Ai
  let d ← determinant Ai
  divide d detA

/-- The function `cramerSequential` of Kramer.go. -/
def cramerSequential (A : Mat) (b : Vec) : Except Err Vec := do
  let n := A.length
  let detA ← determinant A
  if detA = 0 then
    throw Err.noUniqueSolution
  forLoop 0 n (fun x i => do
    let v ← cramerEntry A b n detA i
    writeAt x i v) (List.replicate n (0 : ℚ))

/-- The function `cramerParallel` of Kramer.go; `order` is the order in which the
goroutines, one per index, run before `wg.Wait()` returns. -/
def cramerParallel (order : List Nat) (A : Mat) (b : Vec) : Except Err Vec := do
  let n := A.length
  let detA ← determinant A
  if detA = 0 then
    throw Err.noUniqueSolution
  order.foldlM (fun x i => do
    let v ← cramerEntry A b n detA i
    writeAt x i v) (List.replicate n (0 : ℚ))

/-- The product `A·x`: entry `r` is `Σ_c A[r][c]·x[c]`. -/
def matVec (A : Mat) (x : Vec) : Vec :=
  A.map (fun row => (List.zipWith (fun p q => p * q) row x).sum)

/-! ## Notions used in the statements and proofs -/

/-- Equality of outcomes is decidable, so that an outcome on a concrete input can be
evaluated. -/
instance instDecidableEqExcept {ε α : Type} [DecidableEq ε] [DecidableEq α] :
    DecidableEq (Except ε α) := fun x y =>
  match x, y with
  | Except.ok a, Except.ok b =>
    if h : a = b then isTrue (by rw [h]) else isFalse (fun h1 => h (by cases h1; rfl))
  | Except.error a, Except.error b =>
    if h : a = b then isTrue (by rw [h]) else isFalse (fun h1 => h (by cases h1; rfl))
  | Except.ok _, Except.error _ => isFalse (fun h1 => by cases h1)
  | Except.error _, Except.ok _ => isFalse (fun h1 => by cases h1)

/-- Entry `(r, c)` of a matrix, `0` outside it. -/
def ent (m : Mat) (r c : Nat) : ℚ := (m.getD r []).getD c 0

/-- The matrix has `rows` rows, each of length `cols`. -/
def Shape (rows cols : Nat) (m : Mat) : Prop :=
  m.length = rows ∧ ∀ r, r < rows → (m.getD r []).length = cols

/-- The matrix with entry `(r, c)` set to `x`. -/
def put (m : Mat) (r c : Nat) (x : ℚ) : Mat := m.set r ((m.getD r []).set c x)

/-- Row `i` of the working matrix: `copy` into the first `n` cells of a zero row of length
`n+1`, then the last cell set to `bi`. -/
def augRow (n : Nat) (src : Vec) (bi : ℚ) : Vec :=
  (copySlice ((List.replicate (n + 1) (0 : ℚ)).take n) src ++
    (List.replicate (n + 1) (0 : ℚ)).drop n).set n bi

/-- The row exchange of pivot step `i` with pivot row `m`, as a map on row indices. -/
def swapIdx (i m r : Nat) : Nat := if r = m then i else if r = i then m else r

/-- The order in which `regularSLAU` eliminates the rows in pivot step `i`. -/
def rowsBelow (n i : Nat) : List Nat := List.range' (i + 1) (n - (i + 1))

/-- Row `r` of the working matrix applied to `y`: `Σ_{c ≤ n} ab[r][c] · y c`.  With
`y n = -1` it is zero exactly when `y` satisfies equation `r`. -/
def rowDot (n : Nat) (m : Mat) (r : Nat) (y : Nat → ℚ) : ℚ :=
  ∑ c ∈ Finset.range (n + 1), ent m r c * y c

/-- The state of the working matrix before pivot step `k`: it has its shape, it is zero
below the diagonal in the columns before `k`, its first `k` diagonal entries are `1`, and
its rows annihilate the same vectors as the rows of the initial matrix `ab0`. -/
def Reduced (n k : Nat) (ab0 ab : Mat) : Prop :=
  Shape n (n + 1) ab ∧
  (∀ r c, r < n → c < k → c < r → ent ab r c = 0) ∧
  (∀ r, r < k → r < n → ent ab r r = 1) ∧
  (∀ y : Nat → ℚ, (∀ r, r < n → rowDot n ab r y = 0) ↔ (∀ r, r < n → rowDot n ab0 r y = 0))

/-- A candidate solution `x` as a vector on the columns of the working matrix: `x` on the
first `n` columns and `-1` on the column of right-hand sides. -/
def extend (n : Nat) (x : Vec) (c : Nat) : ℚ := if c < n then x.getD c 0 else -1

/-- A row cut or padded with zeros to length `n`: what `copy(ab[i][:n], a[i])` keeps of it. -/
def fitRow (n : Nat) (row : Vec) : Vec := row.take n ++ List.replicate (n - row.length) 0

/-- The matrix `a` with every row cut or padded to the number of rows of `a`. -/
def squared (a : Mat) : Mat := a.map (fitRow a.length)

/-- The first `n × n` entries of `A` as a matrix of Mathlib. -/
def toMatrix (n : Nat) (A : Mat) : Matrix (Fin n) (Fin n) ℚ :=
  Matrix.of fun r c => ent A r.val c.val

/-- Some row of `A` holds only zeros. -/
def HasZeroRow (A : Mat) : Prop := ∃ row, row ∈ A ∧ ∀ v, v ∈ row → v = 0

/-- Two rows of `A`, at different indices, are identical. -/
def HasEqualRows (A : Mat) : Prop :=
  ∃ r s, r < s ∧ s < A.length ∧ A.getD r [] = A.getD s []

/-- A vector as a function on `Fin n`. -/
def vecFn (n : Nat) (b : Vec) : Fin n → ℚ := fun r => b.getD r.val 0

/-- The matrix `A` with column `i` replaced by `b`: row `j` has its entry `i` set to
`b[j]`. -/
def replaceColumn (A : Mat) (i : Nat) (b : Vec) : Mat :=
  List.zipWith (fun row bj => row.set i bj) A b

/-- Following the spec's words, the conventional skip-index extraction of a minor: row 0
is dropped and column `i` is skipped, the other columns keeping their order. -/
def skipMinor (M : Mat) (i : Nat) : Mat := M.tail.map (fun row => row.eraseIdx i)

/-- Following the spec's words: the first-row expansion `Σ_i (-1)^i · M[0][i] · (…)` with
the base cases of `determinant` and the skip-column minors, unfolded at most `fuel`
times. -/
def skipExpansionAux : Nat → Mat → ℚ
  | 0, M =>
    if M.length = 1 then ent M 0 0
    else if M.length = 2 then ent M 0 0 * ent M 1 1 - ent M 0 1 * ent M 1 0
    else 0
  | fuel + 1, M =>
    if M.length = 1 then ent M 0 0
    else if M.length = 2 then ent M 0 0 * ent M 1 1 - ent M 0 1 * ent M 1 0
    else ((List.range M.length).map fun i =>
      (-1) ^ i * ent M 0 i * skipExpansionAux fuel (skipMinor M i)).sum

/-- Following the spec's words: the first-row expansion with the conventional skip-column
minors, to be compared with `determinant`. -/
def skipExpansion (M : Mat) : ℚ := skipExpansionAux M.length M

/-! ## Basic facts: checked accesses, shapes, loops -/

@[simp] theorem bind_ok {α β : Type} (a : α) (f : α → Except Err β) :
    (Except.ok a >>= f) = f a := rfl

@[simp] theorem bind_error {α β : Type} (e : Err) (f : α → Except Err β) :
    ((Except.error e : Except Err α) >>= f) = Except.error e := rfl

@[simp] theorem pure_eq_ok {α : Type} (a : α) : (pure a : Except Err α) = Except.ok a := rfl

@[simp] theorem throw_eq_error {α : Type} (e : Err) :
    (throw e : Except Err α) = Except.error e := rfl

theorem readAt_ok {α : Type} (v : List α) (i : Nat) (d : α) (h : i < v.length) :
    readAt v i = Except.ok (v.getD i d) := by
  unfold readAt
  simp [List.getD, List.get?_eq_getElem?, List.getElem?_eq_getElem h]

theorem readAt_error {α : Type} (v : List α) (i : Nat) (h : v.length ≤ i) :
    readAt v i = Except.error Err.indexOutOfRange := by
  unfold readAt
  simp [List.get?_eq_getElem?, List.getElem?_eq_none h]

theorem writeAt_ok {α : Type} (v : List α) (i : Nat) (x : α) (h : i < v.length) :
    writeAt v i x = Except.ok (v.set i x) := by
  unfold writeAt
  simp [h]

theorem getD_set_eq {α : Type} (v : List α) (i : Nat) (x d : α) (h : i < v.length) :
    (v.set i x).getD i d = x := by
  simp [List.getD, h]

theorem getD_set_ne {α : Type} (v : List α) (i j : Nat) (x d : α) (h : i ≠ j) :
    (v.set i x).getD j d = v.getD j d := by
  simp [List.getD, List.getElem?_set_ne h]

theorem getD_set {α : Type} (v : List α) (i j : Nat) (x d : α) (h : i < v.length) :
    (v.set i x).getD j d = if j = i then x else v.getD j d := by
  by_cases hj : j = i
  · subst hj; rw [if_pos rfl]; exact getD_set_eq _ _ _ _ h
  · rw [if_neg hj]; exact getD_set_ne _ _ _ _ _ (Ne.symm hj)

theorem getEntry_ok {R C : Nat} {m : Mat} (hm : Shape R C m) {r c : Nat} (hr : r < R)
    (hc : c < C) : getEntry m r c = Except.ok (ent m r c) := by
  unfold getEntry ent
  rw [readAt_ok m r [] (by rw [hm.1]; exact hr)]
  exact readAt_ok _ c 0 (by rw [hm.2 r hr]; exact hc)

theorem setEntry_ok {R C : Nat} {m : Mat} (hm : Shape R C m) {r c : Nat} (hr : r < R)
    (hc : c < C) (x : ℚ) : setEntry m r c x = Except.ok (put m r c x) := by
  unfold setEntry put
  rw [readAt_ok m r [] (by rw [hm.1]; exact hr)]
  simp only []
  rw [writeAt_ok _ c x (by rw [hm.2 r hr]; exact hc)]
  simp only []
  exact writeAt_ok _ _ _ (by rw [hm.1]; exact hr)

theorem shape_set {R C : Nat} {m : Mat} (hm : Shape R C m) (r : Nat) (row : List ℚ)
    (hrow : row.length = C) : Shape R C (m.set r row) := by
  refine ⟨by simp [hm.1], fun r1 hr1 => ?_⟩
  by_cases h : r = r1
  · subst h; rw [getD_set_eq _ _ _ _ (by rw [hm.1]; exact hr1)]; exact hrow
  · rw [getD_set_ne _ _ _ _ _ h]; exact hm.2 r1 hr1

theorem shape_put {R C : Nat} {m : Mat} (hm : Shape R C m) {r : Nat} (hr : r < R) (c : Nat)
    (x : ℚ) : Shape R C (put m r c x) :=
  shape_set hm r _ (by rw [List.length_set]; exact hm.2 r hr)

theorem ent_put {R C : Nat} {m : Mat} (hm : Shape R C m) {r c : Nat} (hr : r < R)
    (hc : c < C) (x : ℚ) (r1 c1 : Nat) :
    ent (put m r c x) r1 c1 = if r1 = r ∧ c1 = c then x else ent m r1 c1 := by
  unfold ent put
  rw [getD_set _ _ _ _ _ (by rw [hm.1]; exact hr)]
  by_cases h1 : r1 = r
  · subst h1
    rw [if_pos rfl, getD_set _ _ _ _ _ (by rw [hm.2 r1 hr]; exact hc)]
    simp
  · simp [h1]

theorem ent_set {m : Mat} {r : Nat} (hr : r < m.length) (row : List ℚ) (r1 c1 : Nat) :
    ent (m.set r row) r1 c1 = if r1 = r then row.getD c1 0 else ent m r1 c1 := by
  unfold ent
  rw [getD_set _ _ _ _ _ hr]
  by_cases h1 : r1 = r <;> simp [h1]

/-- Two matrices of the same shape with the same entries are equal. -/
theorem shape_ext {R C : Nat} {m1 m2 : Mat} (h1 : Shape R C m1) (h2 : Shape R C m2)
    (h : ∀ r c, r < R → c < C → ent m1 r c = ent m2 r c) : m1 = m2 := by
  apply List.ext_getElem (by rw [h1.1, h2.1])
  intro r hr1 hr2
  have hr : r < R := by rw [← h1.1]; exact hr1
  have e1 : m1.getD r [] = m1[r] := by simp [List.getD, List.getElem?_eq_getElem hr1]
  have e2 : m2.getD r [] = m2[r] := by simp [List.getD, List.getElem?_eq_getElem hr2]
  have l1 := h1.2 r hr
  have l2 := h2.2 r hr
  rw [e1] at l1
  rw [e2] at l2
  apply List.ext_getElem (by rw [l1, l2])
  intro c hc1 hc2
  have hc : c < C := by rw [← l1]; exact hc1
  have := h r c hr hc
  unfold ent at this
  rw [e1, e2] at this
  simpa [List.getD, List.getElem?_eq_getElem hc1, List.getElem?_eq_getElem hc2] using this

/-! ### Loops -/

theorem forLoop_done {σ : Type} (lo hi : Nat) (body : σ → Nat → Except Err σ) (s : σ)
    (h : hi ≤ lo) : forLoop lo hi body s = Except.ok s := by
  unfold forLoop
  rw [Nat.sub_eq_zero_of_le h]
  rfl

theorem forLoop_step {σ : Type} (lo hi : Nat) (body : σ → Nat → Except Err σ) (s : σ)
    (h : lo < hi) : forLoop lo hi body s = body s lo >>= forLoop (lo + 1) hi body := by
  unfold forLoop
  have : hi - lo = (hi - (lo + 1)) + 1 := by omega
  rw [this, List.range'_succ, List.foldlM_cons]

/-- Invariant rule for a loop none of whose iterations fails. -/
theorem forLoop_ok {σ : Type} (P : Nat → σ → Prop) (hi : Nat) (body : σ → Nat → Except Err σ)
    (hstep : ∀ k s, k < hi → P k s → ∃ s1, body s k = Except.ok s1 ∧ P (k + 1) s1) :
    ∀ (d lo : Nat) (s : σ), hi = lo + d → P lo s →
      ∃ s1, forLoop lo hi body s = Except.ok s1 ∧ P hi s1 := by
  intro d
  induction d with
  | zero =>
    intro lo s hd h0
    refine ⟨s, forLoop_done lo hi body s (by omega), ?_⟩
    have : hi = lo := by omega
    rw [this]; exact h0
  | succ d ih =>
    intro lo s hd h0
    obtain ⟨s1, hs1, hP1⟩ := hstep lo s (by omega) h0
    obtain ⟨s2, hs2, hP2⟩ := ih (lo + 1) s1 (by omega) hP1
    refine ⟨s2, ?_, hP2⟩
    rw [forLoop_step lo hi body s (by omega), hs1]
    exact hs2

/-- Invariant rule for a loop whose iterations may stop with an error in `E`. -/
theorem forLoop_cases {σ : Type} (P : Nat → σ → Prop) (E : Err → Prop) (hi : Nat)
    (body : σ → Nat → Except Err σ)
    (hstep : ∀ k s, k < hi → P k s →
      (∃ s1, body s k = Except.ok s1 ∧ P (k + 1) s1) ∨ (∃ e, body s k = Except.error e ∧ E e)) :
    ∀ (d lo : Nat) (s : σ), hi = lo + d → P lo s →
      (∃ s1, forLoop lo hi body s = Except.ok s1 ∧ P hi s1) ∨
        (∃ e, forLoop lo hi body s = Except.error e ∧ E e) := by
  intro d
  induction d with
  | zero =>
    intro lo s hd h0
    left
    refine ⟨s, forLoop_done lo hi body s (by omega), ?_⟩
    have : hi = lo := by omega
    rw [this]; exact h0
  | succ d ih =>
    intro lo s hd h0
    rw [forLoop_step lo hi body s (by omega)]
    rcases hstep lo s (by omega) h0 with ⟨s1, hs1, hP1⟩ | ⟨e, he, hE⟩
    · rw [hs1]
      exact ih (lo + 1) s1 (by omega) hP1
    · right
      exact ⟨e, by rw [he]; rfl, hE⟩

/-! ## The working matrix -/

theorem copySlice_length (dst src : Vec) : (copySlice dst src).length = dst.length := by
  unfold copySlice
  simp only [List.length_append, List.length_take, List.length_drop]
  omega

theorem copySlice_zeros_getD (n : Nat) (src : Vec) (c : Nat) (hc : c < n) :
    (copySlice (List.replicate n (0 : ℚ)) src).getD c 0 = src.getD c 0 := by
  unfold copySlice
  simp only [List.length_replicate, List.drop_replicate]
  rw [List.getD_eq_getElem?_getD, List.getD_eq_getElem?_getD]
  by_cases h : c < src.length
  · rw [List.getElem?_append_left (by simp; omega), List.getElem?_take_of_lt hc]
  · rw [List.getElem?_append_right (by simp; omega)]
    rw [List.getElem?_eq_none (Nat.le_of_not_lt h)]
    rw [List.getElem?_replicate]
    split <;> rfl

theorem augRow_length (n : Nat) (src : Vec) (bi : ℚ) : (augRow n src bi).length = n + 1 := by
  unfold augRow
  simp [copySlice_length]

theorem augRow_last (n : Nat) (src : Vec) (bi : ℚ) : (augRow n src bi).getD n 0 = bi := by
  unfold augRow
  exact getD_set_eq _ _ _ _ (by simp [copySlice_length])

theorem augRow_getD (n : Nat) (src : Vec) (bi : ℚ) (c : Nat) (hc : c < n) :
    (augRow n src bi).getD c 0 = src.getD c 0 := by
  unfold augRow
  rw [getD_set_ne _ _ _ _ _ (Nat.ne_of_gt hc)]
  have h1 : (List.replicate (n + 1) (0 : ℚ)).take n = List.replicate n 0 := by simp
  rw [h1, List.getD_eq_getElem?_getD,
    List.getElem?_append_left (by rw [copySlice_length]; simpa using hc),
    ← List.getD_eq_getElem?_getD]
  exact copySlice_zeros_getD n src c hc

theorem augment_body (a : Mat) (b : Vec) (n : Nat) (ha : a.length = n) (hb : b.length = n)
    (ab : Mat) (hab : ab.length = n) (i : Nat) (hi : i < n) :
    (do
      let ab ← writeAt ab i (List.replicate (n + 1) (0 : ℚ))
      let row ← readAt ab i
      let src ← readAt a i
      let ab ← writeAt ab i (copySlice (row.take n) src ++ row.drop n)
      let bi ← readAt b i
      setEntry ab i n bi : Except Err Mat) =
      Except.ok (ab.set i (augRow n (a.getD i []) (b.getD i 0))) := by
  have hi1 : i < ab.length := by omega
  rw [writeAt_ok _ _ _ hi1, bind_ok]
  rw [readAt_ok _ i [] (by simpa using hi1), bind_ok]
  rw [readAt_ok a i [] (by omega), bind_ok]
  rw [writeAt_ok _ _ _ (by simpa using hi1), bind_ok]
  rw [readAt_ok b i 0 (by omega), bind_ok]
  rw [getD_set_eq _ _ _ _ hi1, List.set_set]
  unfold setEntry
  rw [readAt_ok _ i [] (by simpa using hi1)]
  simp only []
  rw [getD_set_eq _ _ _ _ hi1]
  rw [writeAt_ok _ n _ (by simp [copySlice_length])]
  simp only []
  rw [writeAt_ok _ _ _ (by simpa using hi1), List.set_set]
  rfl

/-- The working matrix is always built, has shape `n × (n+1)`, holds `a` in its first `n`
columns (a short row of `a` padded with zeros, a long one cut) and `b` in the last. -/
theorem augment_spec (a : Mat) (b : Vec) (n : Nat) (ha : a.length = n) (hb : b.length = n) :
    ∃ ab, augment a b n = Except.ok ab ∧ Shape n (n + 1) ab ∧
      ∀ r, r < n → (∀ c, c < n → ent ab r c = ent a r c) ∧ ent ab r n = b.getD r 0 := by
  have key := forLoop_ok
    (fun k (ab : Mat) => ab.length = n ∧
      ∀ r, r < k → ab.getD r [] = augRow n (a.getD r []) (b.getD r 0)) n
    (fun ab i => do
      let ab ← writeAt ab i (List.replicate (n + 1) (0 : ℚ))
      let row ← readAt ab i
      let src ← readAt a i
      let ab ← writeAt ab i (copySlice (row.take n) src ++ row.drop n)
      let bi ← readAt b i
      setEntry ab i n bi)
    (by
      intro k s hk hP
      refine ⟨_, augment_body a b n ha hb s hP.1 k hk, by simp [hP.1], ?_⟩
      intro r hr
      by_cases h : r = k
      · subst h; exact getD_set_eq _ _ _ _ (by omega)
      · rw [getD_set_ne _ _ _ _ _ (Ne.symm h)]; exact hP.2 r (by omega))
    n 0 (List.replicate n []) (by omega) ⟨by simp, by intro r hr; omega⟩
  obtain ⟨ab, h1, h2, h3⟩ := key
  refine ⟨ab, h1, ⟨h2, fun r hr => by rw [h3 r hr]; exact augRow_length _ _ _⟩, ?_⟩
  intro r hr
  unfold ent
  rw [h3 r hr]
  exact ⟨fun c hc => augRow_getD _ _ _ c hc, augRow_last _ _ _⟩

/-! ## The operations of a pivot step -/

/-- The pivot search returns a row `m` of `i .. n-1` whose entry in column `i` is largest
in absolute value, the first such row. -/
theorem findPivot_spec {n : Nat} {ab : Mat} (hS : Shape n (n + 1) ab) {i : Nat} (hi : i < n) :
    ∃ m, findPivot ab n i = Except.ok m ∧ i ≤ m ∧ m < n ∧
      (∀ r, i ≤ r → r < n → |ent ab r i| ≤ |ent ab m i|) ∧
      (∀ r, i ≤ r → r < m → |ent ab r i| < |ent ab m i|) := by
  have key := forLoop_ok
    (fun k (m : Nat) => i < k ∧ i ≤ m ∧ m < k ∧
      (∀ r, i ≤ r → r < k → |ent ab r i| ≤ |ent ab m i|) ∧
      (∀ r, i ≤ r → r < m → |ent ab r i| < |ent ab m i|)) n
    (fun maxRow j => do
      let x ← getEntry ab j i
      let y ← getEntry ab maxRow i
      pure (if |x| > |y| then j else maxRow))
    (by
      intro k m hk hP
      obtain ⟨hik, him, hmk, hmax, hfirst⟩ := hP
      beta_reduce
      rw [getEntry_ok hS hk (by omega), bind_ok, getEntry_ok hS (by omega) (by omega), bind_ok]
      refine ⟨_, rfl, by omega, ?_⟩
      by_cases hgt : |ent ab k i| > |ent ab m i|
      · rw [if_pos hgt]
        refine ⟨by omega, by omega, ?_, ?_⟩
        · intro r h1 h2
          by_cases hrk : r = k
          · rw [hrk]
          · exact le_trans (hmax r h1 (by omega)) (le_of_lt hgt)
        · intro r h1 h2
          exact lt_of_le_of_lt (hmax r h1 h2) hgt
      · rw [if_neg hgt]
        refine ⟨him, by omega, ?_, hfirst⟩
        intro r h1 h2
        by_cases hrk : r = k
        · rw [hrk]; exact not_lt.mp hgt
        · exact hmax r h1 (by omega))
    (n - (i + 1)) (i + 1) i (by omega)
    ⟨by omega, le_refl i, by omega, by
      intro r h1 h2
      have : r = i := by omega
      rw [this], by
      intro r h1 h2
      omega⟩
  obtain ⟨m, h1, _, h2, h3, h4, h5⟩ := key
  exact ⟨m, h1, h2, h3, h4, h5⟩

theorem swapRows_spec {n C : Nat} {ab : Mat} (hS : Shape n C ab) {i m : Nat} (hi : i < n)
    (hm : m < n) :
    ∃ ab1, swapRows ab i m = Except.ok ab1 ∧ Shape n C ab1 ∧
      ∀ r c, ent ab1 r c = ent ab (swapIdx i m r) c := by
  refine ⟨(ab.set i (ab.getD m [])).set m (ab.getD i []), ?_, ?_, ?_⟩
  · unfold swapRows
    rw [readAt_ok ab m [] (by rw [hS.1]; exact hm), bind_ok,
      readAt_ok ab i [] (by rw [hS.1]; exact hi), bind_ok,
      writeAt_ok _ _ _ (by rw [hS.1]; exact hi), bind_ok]
    exact writeAt_ok _ _ _ (by rw [List.length_set, hS.1]; exact hm)
  · exact shape_set (shape_set hS i _ (hS.2 m hm)) m _ (hS.2 i hi)
  · intro r c
    rw [ent_set (by rw [List.length_set, hS.1]; exact hm), ent_set (by rw [hS.1]; exact hi)]
    unfold swapIdx ent
    by_cases h1 : r = m
    · rw [if_pos h1, if_pos h1]
    · rw [if_neg h1, if_neg h1]
      by_cases h2 : r = i
      · rw [if_pos h2, if_pos h2]
      · rw [if_neg h2, if_neg h2]

theorem normalizeRow_spec {n : Nat} {ab : Mat} (hS : Shape n (n + 1) ab) {i : Nat} (hi : i < n)
    {d : ℚ} (hd : d ≠ 0) :
    ∃ ab1, normalizeRow ab n i d = Except.ok ab1 ∧ Shape n (n + 1) ab1 ∧
      ∀ r c, ent ab1 r c = if r = i ∧ i ≤ c ∧ c ≤ n then ent ab r c / d else ent ab r c := by
  have key := forLoop_ok
    (fun k (s : Mat) => i ≤ k ∧ Shape n (n + 1) s ∧
      ∀ r c, ent s r c = if r = i ∧ i ≤ c ∧ c < k then ent ab r c / d else ent ab r c) (n + 1)
    (fun ab j => do
      let x ← getEntry ab i j
      let q ← divide x d
      setEntry ab i j q)
    (by
      intro k s hk hP
      obtain ⟨hik, hSs, hent⟩ := hP
      beta_reduce
      rw [getEntry_ok hSs hi hk, bind_ok]
      unfold divide
      rw [if_neg hd, bind_ok, setEntry_ok hSs hi hk]
      refine ⟨_, rfl, by omega, shape_put hSs hi _ _, ?_⟩
      intro r c
      rw [ent_put hSs hi hk, hent r c, hent i k]
      by_cases h1 : r = i ∧ c = k
      · obtain ⟨rfl, rfl⟩ := h1
        rw [if_pos ⟨rfl, rfl⟩, if_neg (by omega), if_pos ⟨rfl, hik, by omega⟩]
      · rw [if_neg h1]
        by_cases h2 : r = i ∧ i ≤ c ∧ c < k
        · rw [if_pos h2, if_pos ⟨h2.1, h2.2.1, by omega⟩]
        · rw [if_neg h2, if_neg]
          intro h3
          apply h2
          refine ⟨h3.1, h3.2.1, ?_⟩
          have : c ≠ k := fun h => h1 ⟨h3.1, h⟩
          omega)
    (n + 1 - i) i ab (by omega)
    ⟨le_refl i, hS, by
      intro r c
      rw [if_neg]
      omega⟩
  obtain ⟨ab1, h1, _, h2, h3⟩ := key
  refine ⟨ab1, h1, h2, ?_⟩
  intro r c
  rw [h3 r c]
  by_cases h : r = i ∧ i ≤ c ∧ c ≤ n
  · rw [if_pos h, if_pos ⟨h.1, h.2.1, by omega⟩]
  · rw [if_neg h, if_neg]
    intro h3
    exact h ⟨h3.1, h3.2.1, by omega⟩

theorem eliminateRow_spec {n : Nat} {ab : Mat} (hS : Shape n (n + 1) ab) {i j : Nat}
    (hi : i < n) (hj : j < n) (hij : j ≠ i) :
    ∃ ab1, eliminateRow n i ab j = Except.ok ab1 ∧ Shape n (n + 1) ab1 ∧
      ∀ r c, ent ab1 r c =
        if r = j ∧ i ≤ c ∧ c ≤ n then ent ab j c - ent ab j i * ent ab i c else ent ab r c := by
  have key := forLoop_ok
    (fun k (s : Mat) => i ≤ k ∧ Shape n (n + 1) s ∧
      ∀ r c, ent s r c =
        if r = j ∧ i ≤ c ∧ c < k then ent ab j c - ent ab j i * ent ab i c else ent ab r c)
    (n + 1)
    (fun s k => do
      let x ← getEntry s j k
      let p ← getEntry s i k
      setEntry s j k (x - ent ab j i * p))
    (by
      intro k s hk hP
      obtain ⟨hik, hSs, hent⟩ := hP
      beta_reduce
      rw [getEntry_ok hSs hj hk, bind_ok, getEntry_ok hSs hi hk, bind_ok,
        setEntry_ok hSs hj hk]
      refine ⟨_, rfl, by omega, shape_put hSs hj _ _, ?_⟩
      intro r c
      rw [ent_put hSs hj hk, hent r c, hent j k, hent i k]
      rw [if_neg (by omega : ¬(j = j ∧ i ≤ k ∧ k < k)),
        if_neg (fun h => hij h.1.symm : ¬(i = j ∧ i ≤ k ∧ k < k))]
      by_cases h1 : r = j ∧ c = k
      · obtain ⟨rfl, rfl⟩ := h1
        rw [if_pos ⟨rfl, rfl⟩, if_pos ⟨rfl, hik, by omega⟩]
      · rw [if_neg h1]
        by_cases h2 : r = j ∧ i ≤ c ∧ c < k
        · rw [if_pos h2, if_pos ⟨h2.1, h2.2.1, by omega⟩]
        · rw [if_neg h2, if_neg]
          intro h3
          apply h2
          refine ⟨h3.1, h3.2.1, ?_⟩
          have : c ≠ k := fun h => h1 ⟨h3.1, h⟩
          omega)
    (n + 1 - i) i ab (by omega)
    ⟨le_refl i, hS, by
      intro r c
      rw [if_neg]
      omega⟩
  obtain ⟨ab1, h1, _, h2, h3⟩ := key
  refine ⟨ab1, ?_, h2, ?_⟩
  · unfold eliminateRow
    rw [getEntry_ok hS hj (by omega), bind_ok]
    exact h1
  · intro r c
    rw [h3 r c]
    by_cases h : r = j ∧ i ≤ c ∧ c ≤ n
    · rw [if_pos h, if_pos ⟨h.1, h.2.1, by omega⟩]
    · rw [if_neg h, if_neg]
      intro h3
      exact h ⟨h3.1, h3.2.1, by omega⟩

/-- The elimination tasks of the rows in `l`, run in the order of `l`: each row `r` of `l`
becomes `row r - ab[r][i] * row i` in the columns `i .. n`, whatever the order. -/
theorem eliminateRows_spec {n i : Nat} (hi : i < n) (l : List Nat) (hl : l.Nodup)
    (hmem : ∀ j, j ∈ l → i < j ∧ j < n) :
    ∀ {ab : Mat}, Shape n (n + 1) ab →
    ∃ ab1, l.foldlM (eliminateRow n i) ab = Except.ok ab1 ∧ Shape n (n + 1) ab1 ∧
      ∀ r c, ent ab1 r c =
        if r ∈ l ∧ i ≤ c ∧ c ≤ n then ent ab r c - ent ab r i * ent ab i c else ent ab r c := by
  induction l with
  | nil =>
    intro ab hS
    exact ⟨ab, rfl, hS, fun r c => by simp⟩
  | cons j l ih =>
    intro ab hS
    have hj := hmem j (List.mem_cons_self j l)
    obtain ⟨ab1, e1, hS1, hent1⟩ := eliminateRow_spec hS hi hj.2 (Nat.ne_of_gt hj.1)
    have hnd := List.nodup_cons.mp hl
    obtain ⟨ab2, e2, hS2, hent2⟩ :=
      ih hnd.2 (fun x hx => hmem x (List.mem_cons_of_mem j hx)) hS1
    refine ⟨ab2, ?_, hS2, ?_⟩
    · rw [List.foldlM_cons, e1, bind_ok]
      exact e2
    · intro r c
      rw [hent2 r c]
      have hi1 : ∀ c1, ent ab1 i c1 = ent ab i c1 := by
        intro c1
        rw [hent1 i c1, if_neg]
        intro h
        omega
      by_cases hr : r ∈ l
      · have hrj : r ≠ j := fun h => hnd.1 (h ▸ hr)
        have hr1 : ∀ c1, ent ab1 r c1 = ent ab r c1 := by
          intro c1
          rw [hent1 r c1, if_neg]
          intro h
          exact hrj h.1
        rw [hr1, hr1, hi1]
        by_cases hc : i ≤ c ∧ c ≤ n
        · rw [if_pos ⟨hr, hc⟩, if_pos ⟨List.mem_cons_of_mem j hr, hc⟩]
        · rw [if_neg (fun h => hc h.2), if_neg (fun h => hc h.2)]
      · rw [if_neg (fun h => hr h.1), hent1 r c]
        by_cases hrj : r = j
        · subst hrj
          by_cases hc : i ≤ c ∧ c ≤ n
          · rw [if_pos ⟨rfl, hc⟩, if_pos ⟨List.mem_cons_self r l, hc⟩]
          · rw [if_neg (fun h => hc h.2), if_neg (fun h => hc h.2)]
        · rw [if_neg (fun h => hrj h.1), if_neg]
          intro h
          rcases List.mem_cons.mp h.1 with h1 | h1
          · exact hrj h1
          · exact hr h1

theorem pivotEps_pos : 0 < pivotEps := by
  unfold pivotEps
  positivity

/-- Pivot search, exchange, degeneracy check and normalisation: the pivot row `m` is a row
of largest magnitude in column `i`; the step stops with the singular-matrix error exactly
when that magnitude is below `1e-10`, and otherwise row `i` becomes row `m` divided by the
pivot (columns `i .. n`) and row `m` becomes row `i`. -/
theorem pivotRow_spec {n : Nat} {ab : Mat} (hS : Shape n (n + 1) ab) {i : Nat} (hi : i < n) :
    ∃ m, i ≤ m ∧ m < n ∧
      (∀ r, i ≤ r → r < n → |ent ab r i| ≤ |ent ab m i|) ∧
      (∀ r, i ≤ r → r < m → |ent ab r i| < |ent ab m i|) ∧
      ((|ent ab m i| < pivotEps ∧ pivotRow ab n i = Except.error Err.singularMatrix) ∨
       (pivotEps ≤ |ent ab m i| ∧ ∃ ab1, pivotRow ab n i = Except.ok ab1 ∧
          Shape n (n + 1) ab1 ∧
          ∀ r c, ent ab1 r c =
            if r = i ∧ i ≤ c ∧ c ≤ n then ent ab m c / ent ab m i
            else ent ab (swapIdx i m r) c)) := by
  obtain ⟨m, e1, him, hmn, hmax, hfirst⟩ := findPivot_spec hS hi
  obtain ⟨ab1, e2, hS1, hent1⟩ := swapRows_spec hS hi hmn
  have hii : ent ab1 i i = ent ab m i := by
    rw [hent1 i i]
    unfold swapIdx
    by_cases h : i = m
    · rw [if_pos h, ← h]
    · rw [if_neg h, if_pos rfl]
  have hrow : ∀ c, ent ab1 i c = ent ab m c := by
    intro c
    rw [hent1 i c]
    unfold swapIdx
    by_cases h : i = m
    · rw [if_pos h, ← h]
    · rw [if_neg h, if_pos rfl]
  refine ⟨m, him, hmn, hmax, hfirst, ?_⟩
  unfold pivotRow
  rw [e1, bind_ok, e2, bind_ok, getEntry_ok hS1 hi (by omega), bind_ok, hii]
  by_cases hsmall : |ent ab m i| < pivotEps
  · left
    refine ⟨hsmall, ?_⟩
    rw [if_pos hsmall]
    rfl
  · right
    refine ⟨not_lt.mp hsmall, ?_⟩
    have hd : ent ab m i ≠ 0 := by
      intro h0
      rw [h0, abs_zero] at hsmall
      exact hsmall pivotEps_pos
    obtain ⟨ab2, e3, hS2, hent2⟩ := normalizeRow_spec hS1 hi hd
    refine ⟨ab2, ?_, hS2, ?_⟩
    · rw [if_neg hsmall]
      exact e3
    · intro r c
      rw [hent2 r c]
      by_cases h : r = i ∧ i ≤ c ∧ c ≤ n
      · rw [if_pos h, if_pos h, h.1, hrow]
      · rw [if_neg h, if_neg h, hent1]

/-! ## A whole pivot step -/

theorem swapIdx_self (i m : Nat) : swapIdx i m i = m := by
  unfold swapIdx
  by_cases h : i = m
  · rw [if_pos h, h]
  · rw [if_neg h, if_pos rfl]

theorem swapIdx_pivot (i m : Nat) : swapIdx i m m = i := by
  unfold swapIdx
  rw [if_pos rfl]

theorem swapIdx_other {i m r : Nat} (h1 : r ≠ i) (h2 : r ≠ m) : swapIdx i m r = r := by
  unfold swapIdx
  rw [if_neg h2, if_neg h1]

theorem swapIdx_ge {i m r : Nat} (him : i ≤ m) (hir : i ≤ r) : i ≤ swapIdx i m r := by
  unfold swapIdx
  split
  · exact le_refl i
  · split
    · exact him
    · exact hir

theorem swapIdx_lt {i m r n : Nat} (hi : i < n) (hm : m < n) (hr : r < n) :
    swapIdx i m r < n := by
  unfold swapIdx
  split
  · exact hi
  · split
    · exact hm
    · exact hr

theorem mem_rowsBelow (n i j : Nat) : j ∈ rowsBelow n i ↔ i < j ∧ j < n := by
  unfold rowsBelow
  rw [List.mem_range'_1]
  omega

theorem nodup_rowsBelow (n i : Nat) : (rowsBelow n i).Nodup :=
  List.nodup_range' _ _

theorem regularStep_eq_parallelStep (n : Nat) (ab : Mat) (i : Nat) :
    regularStep n ab i = parallelStep n (rowsBelow n i) ab i := rfl

/-- Pivot step `i` with the elimination tasks run in the order `l`, on a matrix whose rows
`i ..` are zero in the columns before `i`. -/
theorem parallelStep_spec {n : Nat} {ab : Mat} (hS : Shape n (n + 1) ab) {i : Nat} (hi : i < n)
    (hZ : ∀ r c, i ≤ r → r < n → c < i → ent ab r c = 0)
    (l : List Nat) (hl : l.Nodup) (hmem : ∀ j, j ∈ l ↔ i < j ∧ j < n) :
    ∃ m, i ≤ m ∧ m < n ∧
      (∀ r, i ≤ r → r < n → |ent ab r i| ≤ |ent ab m i|) ∧
      (∀ r, i ≤ r → r < m → |ent ab r i| < |ent ab m i|) ∧
      ((|ent ab m i| < pivotEps ∧ parallelStep n l ab i = Except.error Err.singularMatrix) ∨
       (pivotEps ≤ |ent ab m i| ∧ ∃ ab2, parallelStep n l ab i = Except.ok ab2 ∧
          Shape n (n + 1) ab2 ∧
          ∀ r c, r < n → c ≤ n → ent ab2 r c =
            if r < i then ent ab r c
            else if r = i then ent ab m c / ent ab m i
            else ent ab (swapIdx i m r) c -
              ent ab (swapIdx i m r) i * (ent ab m c / ent ab m i))) := by
  obtain ⟨m, him, hmn, hmax, hfirst, hcase⟩ := pivotRow_spec hS hi
  refine ⟨m, him, hmn, hmax, hfirst, ?_⟩
  rcases hcase with ⟨hsmall, e1⟩ | ⟨hbig, ab1, e1, hS1, hent1⟩
  · left
    refine ⟨hsmall, ?_⟩
    unfold parallelStep
    rw [e1]
    rfl
  · right
    refine ⟨hbig, ?_⟩
    obtain ⟨ab2, e2, hS2, hent2⟩ :=
      eliminateRows_spec hi l hl (fun j hj => (hmem j).mp hj) hS1
    refine ⟨ab2, ?_, hS2, ?_⟩
    · unfold parallelStep
      rw [e1, bind_ok]
      exact e2
    · intro r c hr hc
      have hrowi : ∀ c1, c1 ≤ n → ent ab1 i c1 = ent ab m c1 / ent ab m i := by
        intro c1 hc1
        rw [hent1 i c1]
        by_cases h : i ≤ c1
        · rw [if_pos ⟨rfl, h, hc1⟩]
        · rw [if_neg (fun h1 => h h1.2.1), swapIdx_self, hZ m c1 him hmn (by omega), zero_div]
      have hrow : ∀ r1 c1, r1 ≠ i → ent ab1 r1 c1 = ent ab (swapIdx i m r1) c1 := by
        intro r1 c1 h1
        rw [hent1 r1 c1, if_neg (fun h => h1 h.1)]
      rw [hent2 r c]
      by_cases h1 : r < i
      · rw [if_pos h1, if_neg (fun h => by have := ((hmem r).mp h.1).1; omega),
          hrow r c (by omega), swapIdx_other (by omega) (by omega)]
      · rw [if_neg h1]
        by_cases h2 : r = i
        · rw [if_pos h2, if_neg (fun h => by have := ((hmem r).mp h.1).1; omega), h2,
            hrowi c hc]
        · rw [if_neg h2]
          have hri : i < r := by omega
          have hrl : r ∈ l := (hmem r).mpr ⟨hri, hr⟩
          by_cases h3 : i ≤ c
          · rw [if_pos ⟨hrl, h3, hc⟩, hrow r c h2, hrow r i h2, hrowi c hc]
          · rw [if_neg (fun h => h3 h.2.1), hrow r c h2]
            have hge : i ≤ swapIdx i m r := swapIdx_ge him (by omega)
            have hlt : swapIdx i m r < n := swapIdx_lt hi hmn hr
            rw [hZ _ c hge hlt (by omega), hZ m c him hmn (by omega)]
            simp

/-! ## The invariant of the elimination loop -/

theorem rowDot_congr {n : Nat} {m1 m2 : Mat} {r1 r2 : Nat} (y : Nat → ℚ)
    (h : ∀ c, c ≤ n → ent m1 r1 c = ent m2 r2 c) : rowDot n m1 r1 y = rowDot n m2 r2 y := by
  unfold rowDot
  apply Finset.sum_congr rfl
  intro c hc
  rw [h c (by have := Finset.mem_range.mp hc; omega)]

theorem rowDot_div {n : Nat} {m1 m2 : Mat} {r1 r2 : Nat} (y : Nat → ℚ) (d : ℚ)
    (h : ∀ c, c ≤ n → ent m1 r1 c = ent m2 r2 c / d) :
    rowDot n m1 r1 y = rowDot n m2 r2 y / d := by
  unfold rowDot
  rw [Finset.sum_div]
  apply Finset.sum_congr rfl
  intro c hc
  rw [h c (by have := Finset.mem_range.mp hc; omega)]
  ring

theorem rowDot_sub {n : Nat} {m1 m2 : Mat} {r1 r2 r3 : Nat} (y : Nat → ℚ) (f d : ℚ)
    (h : ∀ c, c ≤ n → ent m1 r1 c = ent m2 r2 c - f * (ent m2 r3 c / d)) :
    rowDot n m1 r1 y = rowDot n m2 r2 y - f * (rowDot n m2 r3 y / d) := by
  unfold rowDot
  rw [Finset.sum_div, Finset.mul_sum, ← Finset.sum_sub_distrib]
  apply Finset.sum_congr rfl
  intro c hc
  rw [h c (by have := Finset.mem_range.mp hc; omega)]
  ring

/-- A pivot step that does not stop with the singular-matrix error takes the invariant
from `k` to `k+1`. -/
theorem parallelStep_reduced {n k : Nat} {ab0 ab : Mat} (hk : k < n) (hR : Reduced n k ab0 ab)
    (l : List Nat) (hl : l.Nodup) (hmem : ∀ j, j ∈ l ↔ k < j ∧ j < n) :
    parallelStep n l ab k = Except.error Err.singularMatrix ∨
      ∃ ab2, parallelStep n l ab k = Except.ok ab2 ∧ Reduced n (k + 1) ab0 ab2 := by
  obtain ⟨hS, hZ, hD, hAnn⟩ := hR
  obtain ⟨m, hkm, hmn, _, _, hcase⟩ :=
    parallelStep_spec hS hk (fun r c h1 h2 h3 => hZ r c h2 h3 (by omega)) l hl hmem
  rcases hcase with ⟨_, e⟩ | ⟨hbig, ab2, e, hS2, hent⟩
  · exact Or.inl e
  · right
    have hd : ent ab m k ≠ 0 := by
      intro h0
      rw [h0, abs_zero] at hbig
      exact absurd pivotEps_pos (not_lt.mpr hbig)
    have hlow : ∀ r c, r < k → c ≤ n → ent ab2 r c = ent ab r c := by
      intro r c hr hc
      rw [hent r c (by omega) hc, if_pos hr]
    have hpiv : ∀ c, c ≤ n → ent ab2 k c = ent ab m c / ent ab m k := by
      intro c hc
      rw [hent k c hk hc, if_neg (lt_irrefl k), if_pos rfl]
    have hhigh : ∀ r c, k < r → r < n → c ≤ n → ent ab2 r c =
        ent ab (swapIdx k m r) c - ent ab (swapIdx k m r) k * (ent ab m c / ent ab m k) := by
      intro r c hr hrn hc
      rw [hent r c hrn hc, if_neg (by omega), if_neg (by omega)]
    refine ⟨ab2, e, hS2, ?_, ?_, ?_⟩
    · intro r c hr hc hcr
      by_cases hrk : r < k
      · rw [hlow r c hrk (by omega)]
        exact hZ r c hr (by omega) hcr
      · by_cases hrk2 : r = k
        · rw [hrk2, hpiv c (by omega), hZ m c hmn (by omega) (by omega), zero_div]
        · have hge : k ≤ swapIdx k m r := swapIdx_ge hkm (by omega)
          have hlt : swapIdx k m r < n := swapIdx_lt hk hmn hr
          rw [hhigh r c (by omega) hr (by omega)]
          by_cases hck : c = k
          · rw [hck, div_self hd, mul_one, sub_self]
          · rw [hZ _ c hlt (by omega) (by omega), hZ m c hmn (by omega) (by omega)]
            simp
    · intro r hr hrn
      by_cases hrk : r < k
      · rw [hlow r r hrk (by omega)]
        exact hD r hrk hrn
      · have : r = k := by omega
        rw [this, hpiv k (by omega), div_self hd]
    · intro y
      rw [← hAnn y]
      constructor
      · intro h2
        have hm0 : rowDot n ab m y = 0 := by
          have := h2 k hk
          rw [rowDot_div y (ent ab m k) hpiv] at this
          exact (div_eq_zero_iff.mp this).resolve_right hd
        have hsw : ∀ r, k < r → r < n → rowDot n ab (swapIdx k m r) y = 0 := by
          intro r hr hrn
          have := h2 r hrn
          rw [rowDot_sub y _ (ent ab m k) (fun c hc => hhigh r c hr hrn hc), hm0] at this
          simpa using this
        intro r hr
        by_cases hrk : r < k
        · rw [← rowDot_congr y (fun c hc => hlow r c hrk hc)]
          exact h2 r (by omega)
        · by_cases hrm : r = m
          · rw [hrm]; exact hm0
          · by_cases hrk2 : r = k
            · have := hsw m (by omega) hmn
              rw [swapIdx_pivot] at this
              rw [hrk2]; exact this
            · have := hsw r (by omega) hr
              rw [swapIdx_other hrk2 hrm] at this
              exact this
      · intro h0 r hr
        by_cases hrk : r < k
        · rw [rowDot_congr y (fun c hc => hlow r c hrk hc)]
          exact h0 r hr
        · by_cases hrk2 : r = k
          · rw [hrk2, rowDot_div y (ent ab m k) hpiv, h0 m hmn, zero_div]
          · rw [rowDot_sub y _ (ent ab m k) (fun c hc => hhigh r c (by omega) hr hc),
              h0 m hmn, h0 _ (swapIdx_lt hk hmn hr)]
            simp

/-- The elimination loop of `regularSLAU` either stops with the singular-matrix error or
ends with the invariant at `n`. -/
theorem eliminate_reduced {n : Nat} {ab0 : Mat} (hS : Shape n (n + 1) ab0) :
    (∃ ab, forLoop 0 n (regularStep n) ab0 = Except.ok ab ∧ Reduced n n ab0 ab) ∨
      forLoop 0 n (regularStep n) ab0 = Except.error Err.singularMatrix := by
  have key := forLoop_cases (fun k (s : Mat) => Reduced n k ab0 s)
    (fun e => e = Err.singularMatrix) n (regularStep n)
    (by
      intro k s hk hP
      rw [regularStep_eq_parallelStep]
      rcases parallelStep_reduced hk hP (rowsBelow n k) (nodup_rowsBelow n k)
        (mem_rowsBelow n k) with e | ⟨ab2, e, hR⟩
      · exact Or.inr ⟨_, e, rfl⟩
      · exact Or.inl ⟨ab2, e, hR⟩)
    n 0 ab0 (by omega)
    ⟨hS, fun r c _ hc _ => by omega, fun r hr _ => by omega, fun y => Iff.rfl⟩
  rcases key with h | ⟨e, he, rfl⟩
  · exact Or.inl h
  · exact Or.inr he

/-! ## Back substitution -/

/-- Invariant rule for a loop that counts down from `m - 1` to `0`. -/
theorem downLoop_ok {σ : Type} (P : Nat → σ → Prop) (n : Nat) (body : σ → Nat → Except Err σ)
    (hstep : ∀ k s, k < n → P (k + 1) s → ∃ s1, body s k = Except.ok s1 ∧ P k s1) :
    ∀ (m : Nat) (s : σ), m ≤ n → P m s →
      ∃ s1, (List.range m).reverse.foldlM body s = Except.ok s1 ∧ P 0 s1 := by
  intro m
  induction m with
  | zero =>
    intro s _ h0
    exact ⟨s, rfl, h0⟩
  | succ m ih =>
    intro s hm h0
    obtain ⟨s1, e1, h1⟩ := hstep m s (by omega) h0
    obtain ⟨s2, e2, h2⟩ := ih s1 (by omega) h1
    refine ⟨s2, ?_, h2⟩
    rw [List.range_succ, List.reverse_append, List.reverse_singleton, List.singleton_append,
      List.foldlM_cons, e1, bind_ok]
    exact e2

theorem backSubstitute_inner {n : Nat} {ab : Mat} (hS : Shape n (n + 1) ab) {i : Nat}
    (hi : i < n) (x : Vec) (hx : x.length = n) :
    ∃ x1, forLoop (i + 1) n (fun x j => do
        let xi ← readAt x i
        let c ← getEntry ab i j
        let xj ← readAt x j
        writeAt x i (xi - c * xj)) x = Except.ok x1 ∧ x1.length = n ∧
      (∀ j, j ≠ i → x1.getD j 0 = x.getD j 0) ∧
      x1.getD i 0 = x.getD i 0 - ∑ j ∈ Finset.Ico (i + 1) n, ent ab i j * x.getD j 0 := by
  have key := forLoop_ok
    (fun k (s : Vec) => i < k ∧ s.length = n ∧ (∀ j, j ≠ i → s.getD j 0 = x.getD j 0) ∧
      s.getD i 0 = x.getD i 0 - ∑ j ∈ Finset.Ico (i + 1) k, ent ab i j * x.getD j 0) n
    (fun x j => do
      let xi ← readAt x i
      let c ← getEntry ab i j
      let xj ← readAt x j
      writeAt x i (xi - c * xj))
    (by
      intro k s hk hP
      obtain ⟨hik, hlen, hother, hsum⟩ := hP
      beta_reduce
      rw [readAt_ok s i 0 (by omega), bind_ok, getEntry_ok hS hi (by omega), bind_ok,
        readAt_ok s k 0 (by omega), bind_ok, writeAt_ok _ _ _ (by omega)]
      refine ⟨_, rfl, by omega, by rw [List.length_set]; exact hlen, ?_, ?_⟩
      · intro j hj
        rw [getD_set_ne _ _ _ _ _ (Ne.symm hj)]
        exact hother j hj
      · rw [getD_set_eq _ _ _ _ (by omega), hsum, hother k (by omega),
          Finset.sum_Ico_succ_top (by omega)]
        ring)
    (n - (i + 1)) (i + 1) x (by omega)
    ⟨by omega, hx, fun j _ => rfl, by simp⟩
  obtain ⟨x1, e, _, h1, h2, h3⟩ := key
  exact ⟨x1, e, h1, h2, h3⟩

/-- Back substitution always returns a vector `x` of length `n` with
`x[i] = ab[i][n] - Σ_{i < j < n} ab[i][j] · x[j]`. -/
theorem backSubstitute_spec {n : Nat} {ab : Mat} (hS : Shape n (n + 1) ab) :
    ∃ x, backSubstitute ab n = Except.ok x ∧ x.length = n ∧
      ∀ i, i < n →
        x.getD i 0 = ent ab i n - ∑ j ∈ Finset.Ico (i + 1) n, ent ab i j * x.getD j 0 := by
  have key := downLoop_ok
    (fun k (x : Vec) => x.length = n ∧ ∀ i, k ≤ i → i < n →
      x.getD i 0 = ent ab i n - ∑ j ∈ Finset.Ico (i + 1) n, ent ab i j * x.getD j 0) n
    (fun x i => do
      let v ← getEntry ab i n
      let x ← writeAt x i v
      forLoop (i + 1) n (fun x j => do
        let xi ← readAt x i
        let c ← getEntry ab i j
        let xj ← readAt x j
        writeAt x i (xi - c * xj)) x)
    (by
      intro k x hk hP
      obtain ⟨hlen, hdone⟩ := hP
      beta_reduce
      rw [getEntry_ok hS hk (by omega), bind_ok, writeAt_ok _ _ _ (by omega), bind_ok]
      obtain ⟨x1, e, hlen1, hother, hsum⟩ :=
        backSubstitute_inner hS hk (x.set k (ent ab k n)) (by rw [List.length_set]; exact hlen)
      refine ⟨x1, e, hlen1, ?_⟩
      have hkeep : ∀ j, k < j → x1.getD j 0 = x.getD j 0 := by
        intro j hj
        rw [hother j (by omega), getD_set_ne _ _ _ _ _ (by omega)]
      intro i hki hin
      by_cases hik : i = k
      · rw [hik, hsum, getD_set_eq _ _ _ _ (by omega)]
        congr 1
        apply Finset.sum_congr rfl
        intro j hj
        have := (Finset.mem_Ico.mp hj).1
        rw [hkeep j (by omega), getD_set_ne _ _ _ _ _ (by omega)]
      · rw [hkeep i (by omega), hdone i (by omega) hin]
        congr 1
        apply Finset.sum_congr rfl
        intro j hj
        have := (Finset.mem_Ico.mp hj).1
        rw [hkeep j (by omega)])
    n (List.replicate n (0 : ℚ)) (le_refl n)
    ⟨by simp, fun i h1 h2 => by omega⟩
  obtain ⟨x, e, hlen, h⟩ := key
  exact ⟨x, e, hlen, fun i hi => h i (Nat.zero_le i) hi⟩

/-- On a fully reduced matrix every row annihilates the back-substituted vector. -/
theorem rowDot_backSubstitute {n : Nat} {ab0 ab : Mat} (hR : Reduced n n ab0 ab) {x : Vec}
    (hx : ∀ i, i < n →
      x.getD i 0 = ent ab i n - ∑ j ∈ Finset.Ico (i + 1) n, ent ab i j * x.getD j 0)
    (r : Nat) (hr : r < n) : rowDot n ab r (extend n x) = 0 := by
  obtain ⟨_, hZ, hD, _⟩ := hR
  unfold rowDot
  rw [Finset.sum_range_succ, ← Finset.sum_range_add_sum_Ico _ (by omega : r + 1 ≤ n),
    Finset.sum_range_succ]
  have h1 : ∑ c ∈ Finset.range r, ent ab r c * extend n x c = 0 := by
    apply Finset.sum_eq_zero
    intro c hc
    have := Finset.mem_range.mp hc
    rw [hZ r c hr (by omega) this, zero_mul]
  have h2 : ∑ c ∈ Finset.Ico (r + 1) n, ent ab r c * extend n x c =
      ∑ j ∈ Finset.Ico (r + 1) n, ent ab r j * x.getD j 0 := by
    apply Finset.sum_congr rfl
    intro c hc
    have := (Finset.mem_Ico.mp hc).2
    unfold extend
    rw [if_pos this]
  have h3 : extend n x r = x.getD r 0 := by
    unfold extend
    rw [if_pos hr]
  have h4 : extend n x n = -1 := by
    unfold extend
    rw [if_neg (lt_irrefl n)]
  rw [h1, h2, h3, h4, hD r hr hr, hx r hr]
  ring

/-! ## `regularSLAU` -/

theorem zipWith_mul_sum (n : Nat) : ∀ (row x : Vec), row.length = n → x.length = n →
    (List.zipWith (fun p q => p * q) row x).sum =
      ∑ c ∈ Finset.range n, row.getD c 0 * x.getD c 0 := by
  induction n with
  | zero =>
    intro row x hr hx
    rw [List.length_eq_zero.mp hr]
    simp
  | succ n ih =>
    intro row x hr hx
    match row, x, hr, hx with
    | p :: row, q :: x, hr, hx =>
      rw [List.zipWith_cons_cons, List.sum_cons, Finset.sum_range_succ',
        ih row x (by simpa using hr) (by simpa using hx)]
      simp only [List.getD_cons_succ, List.getD_cons_zero]
      ring

theorem matVec_getD (A : Mat) (x : Vec) (n : Nat) (hrows : ∀ row, row ∈ A → row.length = n)
    (hx : x.length = n) (r : Nat) (hr : r < A.length) :
    (matVec A x).getD r 0 = ∑ c ∈ Finset.range n, ent A r c * x.getD c 0 := by
  unfold matVec ent
  have h1 : A.getD r [] = A[r] := by
    rw [List.getD_eq_getElem?_getD, List.getElem?_eq_getElem hr]; rfl
  rw [List.getD_eq_getElem?_getD, List.getElem?_map, List.getElem?_eq_getElem hr, h1]
  exact zipWith_mul_sum n _ x (hrows _ (List.getElem_mem hr)) hx

theorem rowDot_extend (n : Nat) (m : Mat) (r : Nat) (x : Vec) :
    rowDot n m r (extend n x) =
      (∑ c ∈ Finset.range n, ent m r c * x.getD c 0) - ent m r n := by
  unfold rowDot
  rw [Finset.sum_range_succ]
  have h1 : ∑ c ∈ Finset.range n, ent m r c * extend n x c =
      ∑ c ∈ Finset.range n, ent m r c * x.getD c 0 := by
    apply Finset.sum_congr rfl
    intro c hc
    unfold extend
    rw [if_pos (Finset.mem_range.mp hc)]
  have h2 : extend n x n = -1 := by
    unfold extend
    rw [if_neg (lt_irrefl n)]
  rw [h1, h2]
  ring

/-- The outcomes of `regularSLAU` on a system with as many rows as right-hand sides: the
singular-matrix error, or the elimination loop ends in a fully reduced matrix `ab` and the
result is the vector that back substitution reads off it. -/
theorem regularSLAU_cases (a : Mat) (b : Vec) (n : Nat) (ha : a.length = n)
    (hb : b.length = n) :
    ∃ ab0, augment a b n = Except.ok ab0 ∧ Shape n (n + 1) ab0 ∧
      (∀ r, r < n → (∀ c, c < n → ent ab0 r c = ent a r c) ∧ ent ab0 r n = b.getD r 0) ∧
      ((forLoop 0 n (regularStep n) ab0 = Except.error Err.singularMatrix ∧
          regularSLAU a b = Except.error Err.singularMatrix) ∨
        ∃ ab x, forLoop 0 n (regularStep n) ab0 = Except.ok ab ∧ Reduced n n ab0 ab ∧
          regularSLAU a b = Except.ok x ∧ x.length = n ∧
          ∀ r, r < n → rowDot n ab r (extend n x) = 0) := by
  obtain ⟨ab0, e0, hS0, hent0⟩ := augment_spec a b n ha hb
  refine ⟨ab0, e0, hS0, hent0, ?_⟩
  have hunf : regularSLAU a b =
      (augment a b n >>= fun ab => forLoop 0 n (regularStep n) ab >>= fun ab =>
        backSubstitute ab n) := by
    unfold regularSLAU
    simp only [ha, hb, ne_eq, not_true_eq_false, if_false]
  rcases eliminate_reduced hS0 with ⟨ab, e1, hR⟩ | e1
  · right
    obtain ⟨x, e2, hlen, hx⟩ := backSubstitute_spec hR.1
    refine ⟨ab, x, e1, hR, ?_, hlen, fun r hr => rowDot_backSubstitute hR hx r hr⟩
    rw [hunf, e0, bind_ok, e1, bind_ok]
    exact e2
  · left
    refine ⟨e1, ?_⟩
    rw [hunf, e0, bind_ok, e1]
    rfl

/-- Every vector returned by `regularSLAU` satisfies all the equations of the system, with
a short row of `a` read as padded by zeros and a long one as cut to `n` columns. -/
theorem regularSLAU_rows (a : Mat) (b x : Vec) (n : Nat) (ha : a.length = n)
    (hb : b.length = n) (h : regularSLAU a b = Except.ok x) :
    x.length = n ∧
      ∀ r, r < n → ∑ c ∈ Finset.range n, ent a r c * x.getD c 0 = b.getD r 0 := by
  obtain ⟨ab0, _, _, hent0, hcase⟩ := regularSLAU_cases a b n ha hb
  rcases hcase with ⟨_, e⟩ | ⟨ab, x1, _, hR, e, hlen, hdot⟩
  · rw [e] at h
    cases h
  · rw [e] at h
    cases h
    refine ⟨hlen, ?_⟩
    intro r hr
    have h0 := (hR.2.2.2 (extend n x)).mp hdot r hr
    rw [rowDot_extend, (hent0 r hr).2] at h0
    have h1 : ∑ c ∈ Finset.range n, ent ab0 r c * x.getD c 0 =
        ∑ c ∈ Finset.range n, ent a r c * x.getD c 0 := by
      apply Finset.sum_congr rfl
      intro c hc
      rw [(hent0 r hr).1 c (Finset.mem_range.mp hc)]
    rw [h1] at h0
    exact sub_eq_zero.mp h0

/-! ## `parallelSLAU` against `regularSLAU` -/

/-- Two loops whose bodies agree on the states that satisfy a preserved invariant agree. -/
theorem forLoop_congr {σ : Type} (P : σ → Prop) (hi : Nat) (f g : σ → Nat → Except Err σ)
    (hfg : ∀ k s, k < hi → P s → g s k = f s k)
    (hP : ∀ k s s1, k < hi → P s → f s k = Except.ok s1 → P s1) :
    ∀ (d lo : Nat) (s : σ), hi = lo + d → P s → forLoop lo hi g s = forLoop lo hi f s := by
  intro d
  induction d with
  | zero =>
    intro lo s hd _
    rw [forLoop_done lo hi g s (by omega), forLoop_done lo hi f s (by omega)]
  | succ d ih =>
    intro lo s hd h0
    rw [forLoop_step lo hi g s (by omega), forLoop_step lo hi f s (by omega),
      hfg lo s (by omega) h0]
    cases hf : f s lo with
    | error e => rfl
    | ok s1 =>
      rw [bind_ok, bind_ok]
      exact ih (lo + 1) s1 (by omega) (hP lo s s1 (by omega) h0 hf)

theorem pivotRow_shape {n : Nat} {ab ab1 : Mat} (hS : Shape n (n + 1) ab) {i : Nat} (hi : i < n)
    (h : pivotRow ab n i = Except.ok ab1) : Shape n (n + 1) ab1 := by
  obtain ⟨m, _, _, _, _, hcase⟩ := pivotRow_spec hS hi
  rcases hcase with ⟨_, e⟩ | ⟨_, ab2, e, hS2, _⟩
  · rw [e] at h
    cases h
  · rw [e] at h
    cases h
    exact hS2

/-- Within a pivot step the order of the elimination tasks does not matter. -/
theorem parallelStep_perm {n : Nat} {ab : Mat} (hS : Shape n (n + 1) ab) {i : Nat} (hi : i < n)
    (l1 l2 : List Nat) (hp : l1.Perm l2) (hl : l2.Nodup) (hmem : ∀ j, j ∈ l2 → i < j ∧ j < n) :
    parallelStep n l1 ab i = parallelStep n l2 ab i := by
  unfold parallelStep
  cases hpr : pivotRow ab n i with
  | error e => rfl
  | ok ab1 =>
    rw [bind_ok, bind_ok]
    have hS1 := pivotRow_shape hS hi hpr
    obtain ⟨s1, e1, hs1, hent1⟩ := eliminateRows_spec hi l1 (hp.nodup_iff.mpr hl)
      (fun j hj => hmem j (hp.mem_iff.mp hj)) hS1
    obtain ⟨s2, e2, hs2, hent2⟩ := eliminateRows_spec hi l2 hl hmem hS1
    rw [e1, e2]
    congr 1
    apply shape_ext hs1 hs2
    intro r c _ _
    rw [hent1 r c, hent2 r c]
    by_cases h : r ∈ l1
    · by_cases hc : i ≤ c ∧ c ≤ n
      · rw [if_pos ⟨h, hc⟩, if_pos ⟨hp.mem_iff.mp h, hc⟩]
      · rw [if_neg (fun h1 => hc h1.2), if_neg (fun h1 => hc h1.2)]
    · rw [if_neg (fun h1 => h h1.1), if_neg (fun h1 => h (hp.mem_iff.mpr h1.1))]

theorem regularStep_shape {n : Nat} {ab ab2 : Mat} (hS : Shape n (n + 1) ab) {i : Nat}
    (hi : i < n) (h : regularStep n ab i = Except.ok ab2) : Shape n (n + 1) ab2 := by
  rw [regularStep_eq_parallelStep] at h
  unfold parallelStep at h
  cases hpr : pivotRow ab n i with
  | error e =>
    rw [hpr] at h
    cases h
  | ok ab1 =>
    rw [hpr, bind_ok] at h
    obtain ⟨s1, e1, hs1, _⟩ := eliminateRows_spec hi (rowsBelow n i) (nodup_rowsBelow n i)
      (fun j hj => (mem_rowsBelow n i j).mp hj) (pivotRow_shape hS hi hpr)
    rw [e1] at h
    cases h
    exact hs1

/-- The two Gaussian solvers return the same outcome when the elimination goroutines of
every pivot step `i` run in any order `sched i` of the rows `i+1 .. n-1`. -/
theorem parallelSLAU_eq (sched : Nat → List Nat) (a : Mat) (b : Vec)
    (hsched : ∀ i, i < a.length → (sched i).Perm (rowsBelow a.length i)) :
    parallelSLAU sched a b = regularSLAU a b := by
  unfold parallelSLAU regularSLAU
  by_cases hlen : a.length = b.length
  · simp only [hlen, ne_eq, not_true_eq_false, if_false]
    rw [← hlen]
    obtain ⟨ab0, e0, hS0, _⟩ := augment_spec a b a.length rfl hlen.symm
    rw [e0, bind_ok, bind_ok]
    have key := forLoop_congr (fun s => Shape a.length (a.length + 1) s) a.length
      (regularStep a.length) (fun ab i => parallelStep a.length (sched i) ab i)
      (by
        intro k s hk hS
        beta_reduce
        rw [regularStep_eq_parallelStep]
        exact parallelStep_perm hS hk _ _ (hsched k hk) (nodup_rowsBelow _ k)
          (fun j hj => (mem_rowsBelow _ k j).mp hj))
      (by
        intro k s s1 hk hS h
        exact regularStep_shape hS hk h)
      a.length 0 ab0 (by omega) hS0
    rw [key]
  · simp only [ne_eq, hlen, not_false_eq_true, if_true]

/-! ## Rows that are not of length `n` -/

theorem fitRow_getD (n : Nat) (row : Vec) (c : Nat) (hc : c < n) :
    (fitRow n row).getD c 0 = row.getD c 0 := by
  unfold fitRow
  rw [List.getD_eq_getElem?_getD, List.getD_eq_getElem?_getD]
  by_cases hcl : c < row.length
  · rw [List.getElem?_append_left (by rw [List.length_take]; omega),
      List.getElem?_take_of_lt hc]
  · rw [List.getElem?_append_right (by rw [List.length_take]; omega),
      List.getElem?_eq_none (Nat.le_of_not_lt hcl), List.getElem?_replicate]
    split <;> rfl

theorem ent_squared (a : Mat) (r c : Nat) (hc : c < a.length) :
    ent (squared a) r c = ent a r c := by
  unfold ent squared
  by_cases hr : r < a.length
  · have h1 : (List.map (fitRow a.length) a).getD r [] = fitRow a.length (a.getD r []) := by
      rw [List.getD_eq_getElem?_getD, List.getD_eq_getElem?_getD, List.getElem?_map,
        List.getElem?_eq_getElem hr]
      rfl
    rw [h1]
    exact fitRow_getD _ _ c hc
  · have h1 : (List.map (fitRow a.length) a).getD r [] = [] := by
      rw [List.getD_eq_getElem?_getD, List.getElem?_eq_none (by simp; omega)]
      rfl
    have h2 : a.getD r [] = [] := by
      rw [List.getD_eq_getElem?_getD, List.getElem?_eq_none (by omega)]
      rfl
    rw [h1, h2]

theorem squared_length (a : Mat) : (squared a).length = a.length := by
  unfold squared
  rw [List.length_map]

theorem squared_rows (a : Mat) : ∀ row, row ∈ squared a → row.length = a.length := by
  intro row hrow
  unfold squared at hrow
  obtain ⟨r0, _, rfl⟩ := List.mem_map.mp hrow
  unfold fitRow
  rw [List.length_append, List.length_take, List.length_replicate]
  omega

/-- The working matrix only depends on the first `n` entries of the rows of `a`. -/
theorem augment_congr (a1 a2 : Mat) (b : Vec) (n : Nat) (h1 : a1.length = n)
    (h2 : a2.length = n) (hb : b.length = n)
    (h : ∀ r c, r < n → c < n → ent a1 r c = ent a2 r c) :
    augment a1 b n = augment a2 b n := by
  obtain ⟨s1, e1, hs1, hent1⟩ := augment_spec a1 b n h1 hb
  obtain ⟨s2, e2, hs2, hent2⟩ := augment_spec a2 b n h2 hb
  rw [e1, e2]
  congr 1
  apply shape_ext hs1 hs2
  intro r c hr hc
  by_cases hcn : c < n
  · rw [(hent1 r hr).1 c hcn, (hent2 r hr).1 c hcn, h r c hr hcn]
  · have : c = n := by omega
    rw [this, (hent1 r hr).2, (hent2 r hr).2]

theorem regularSLAU_squared (a : Mat) (b : Vec) :
    regularSLAU a b = regularSLAU (squared a) b := by
  unfold regularSLAU
  rw [squared_length]
  by_cases hlen : a.length = b.length
  · simp only [hlen, ne_eq, not_true_eq_false, if_false]
    rw [← hlen, augment_congr a (squared a) b a.length rfl (squared_length a) hlen.symm
      (fun r c _ hc => (ent_squared a r c hc).symm)]
  · simp only [ne_eq, hlen, not_false_eq_true, if_true]

theorem parallelSLAU_squared (sched : Nat → List Nat) (a : Mat) (b : Vec) :
    parallelSLAU sched a b = parallelSLAU sched (squared a) b := by
  unfold parallelSLAU
  rw [squared_length]
  by_cases hlen : a.length = b.length
  · simp only [hlen, ne_eq, not_true_eq_false, if_false]
    rw [← hlen, augment_congr a (squared a) b a.length rfl (squared_length a) hlen.symm
      (fun r c _ hc => (ent_squared a r c hc).symm)]
  · simp only [ne_eq, hlen, not_false_eq_true, if_true]

/-! ## Singular systems -/

/-- The rows of a fully reduced matrix annihilate no vector on the first `n` columns but
zero. -/
theorem reduced_kernel {n : Nat} {ab0 ab : Mat} (hR : Reduced n n ab0 ab) (y : Nat → ℚ)
    (hy : ∀ r, r < n → rowDot n ab r y = 0) (hn : y n = 0) : ∀ c, c < n → y c = 0 := by
  obtain ⟨_, hZ, hD, _⟩ := hR
  have key : ∀ k, k ≤ n → ∀ c, n - k ≤ c → c < n → y c = 0 := by
    intro k
    induction k with
    | zero =>
      intro _ c h1 h2
      omega
    | succ k ih =>
      intro hk c h1 h2
      by_cases hc : n - k ≤ c
      · exact ih (by omega) c hc h2
      · have h := hy c h2
        unfold rowDot at h
        rw [Finset.sum_range_succ, ← Finset.sum_range_add_sum_Ico _ (by omega : c + 1 ≤ n),
          Finset.sum_range_succ] at h
        have e1 : ∑ j ∈ Finset.range c, ent ab c j * y j = 0 := by
          apply Finset.sum_eq_zero
          intro j hj
          have := Finset.mem_range.mp hj
          rw [hZ c j h2 (by omega) this, zero_mul]
        have e2 : ∑ j ∈ Finset.Ico (c + 1) n, ent ab c j * y j = 0 := by
          apply Finset.sum_eq_zero
          intro j hj
          have := Finset.mem_Ico.mp hj
          rw [ih (by omega) j (by omega) this.2, mul_zero]
        rw [e1, e2, hn, hD c h2 h2] at h
        simpa using h
  intro c hc
  exact key n (le_refl n) c (by omega) hc

/-- When `regularSLAU` returns a vector, the homogeneous system has only the zero solution. -/
theorem regularSLAU_ok_kernel (a : Mat) (b x : Vec) (n : Nat) (ha : a.length = n)
    (hb : b.length = n) (h : regularSLAU a b = Except.ok x) (y : Nat → ℚ)
    (hy : ∀ r, r < n → ∑ c ∈ Finset.range n, ent a r c * y c = 0) : ∀ c, c < n → y c = 0 := by
  obtain ⟨ab0, _, _, hent0, hcase⟩ := regularSLAU_cases a b n ha hb
  rcases hcase with ⟨_, e⟩ | ⟨ab, x1, _, hR, _, _, _⟩
  · rw [e] at h
    cases h
  · have h0 : ∀ r, r < n → rowDot n ab0 r (fun c => if c < n then y c else 0) = 0 := by
      intro r hr
      unfold rowDot
      rw [Finset.sum_range_succ]
      beta_reduce
      rw [if_neg (lt_irrefl n), mul_zero, add_zero, ← hy r hr]
      apply Finset.sum_congr rfl
      intro c hc
      have hcn := Finset.mem_range.mp hc
      rw [if_pos hcn, (hent0 r hr).1 c hcn]
    have h1 := (hR.2.2.2 _).mpr h0
    intro c hc
    have := reduced_kernel hR _ h1 (by simp) c hc
    simpa [hc] using this

/-- When `regularSLAU` returns a vector, the determinant of the matrix is not zero. -/
theorem regularSLAU_ok_det (a : Mat) (b x : Vec) (n : Nat) (ha : a.length = n)
    (hb : b.length = n) (h : regularSLAU a b = Except.ok x) : (toMatrix n a).det ≠ 0 := by
  intro hdet
  obtain ⟨v, hv, hmul⟩ := Matrix.exists_mulVec_eq_zero_iff.mpr hdet
  apply hv
  have hk := regularSLAU_ok_kernel a b x n ha hb h
    (fun c => if hc : c < n then v ⟨c, hc⟩ else 0)
    (by
      intro r hr
      have := congrFun hmul ⟨r, hr⟩
      rw [Finset.sum_range]
      simpa [Matrix.mulVec, Matrix.dotProduct, toMatrix] using this)
  funext c
  have := hk c.val c.isLt
  simpa using this

theorem getD_mem {α : Type} (l : List α) (r : Nat) (d : α) (hr : r < l.length) :
    l.getD r d ∈ l := by
  rw [List.getD_eq_getElem?_getD, List.getElem?_eq_getElem hr]
  exact List.getElem_mem hr

theorem det_zero_of_hasZeroRow (n : Nat) (A : Mat) (hA : A.length = n) (h : HasZeroRow A) :
    (toMatrix n A).det = 0 := by
  obtain ⟨row, hmem, hzero⟩ := h
  obtain ⟨r, hr, hrow⟩ := List.getElem_of_mem hmem
  have hd : A.getD r [] = row := by
    rw [List.getD_eq_getElem?_getD, List.getElem?_eq_getElem hr, ← hrow]
    rfl
  apply Matrix.det_eq_zero_of_row_eq_zero ⟨r, by omega⟩
  intro c
  show ent A r c.val = 0
  unfold ent
  rw [hd, List.getD_eq_getElem?_getD]
  by_cases hc : c.val < row.length
  · rw [List.getElem?_eq_getElem hc]
    exact hzero _ (List.getElem_mem hc)
  · rw [List.getElem?_eq_none (by omega)]
    rfl

theorem det_zero_of_hasEqualRows (n : Nat) (A : Mat) (hA : A.length = n)
    (h : HasEqualRows A) : (toMatrix n A).det = 0 := by
  obtain ⟨r, s, hrs, hs, heq⟩ := h
  apply Matrix.det_zero_of_row_eq (i := ⟨r, by omega⟩) (j := ⟨s, by omega⟩)
  · intro h1
    have := congrArg Fin.val h1
    simp at this
    omega
  · funext c
    show ent A r c.val = ent A s c.val
    unfold ent
    rw [heq]

/-- A matrix of determinant zero makes `regularSLAU` stop with the singular-matrix error. -/
theorem regularSLAU_det_zero (a : Mat) (b : Vec) (n : Nat) (ha : a.length = n)
    (hb : b.length = n) (hdet : (toMatrix n a).det = 0) :
    regularSLAU a b = Except.error Err.singularMatrix := by
  obtain ⟨ab0, _, _, _, hcase⟩ := regularSLAU_cases a b n ha hb
  rcases hcase with ⟨_, e⟩ | ⟨ab, x, _, _, e, _, _⟩
  · exact e
  · exact absurd hdet (regularSLAU_ok_det a b x n ha hb e)

/-! ## Kramer.go: copies, columns, minors -/

theorem getEntry_row {m : Mat} {r c : Nat} (hr : r < m.length)
    (hc : c < (m.getD r []).length) : getEntry m r c = Except.ok (ent m r c) := by
  unfold getEntry ent
  rw [readAt_ok m r [] hr]
  exact readAt_ok _ c 0 hc

theorem setEntry_row {m : Mat} {r c : Nat} (hr : r < m.length)
    (hc : c < (m.getD r []).length) (x : ℚ) :
    setEntry m r c x = Except.ok (m.set r ((m.getD r []).set c x)) := by
  unfold setEntry
  rw [readAt_ok m r [] hr]
  simp only []
  rw [writeAt_ok _ c x hc]
  simp only []
  exact writeAt_ok _ _ _ hr

/-- A loop that fails at iteration `k0`, the iterations before it keeping an invariant. -/
theorem forLoop_fails {σ : Type} (P : Nat → σ → Prop) (hi k0 : Nat) (e : Err)
    (body : σ → Nat → Except Err σ) (hk0 : k0 < hi)
    (hstep : ∀ k s, k < k0 → P k s → ∃ s1, body s k = Except.ok s1 ∧ P (k + 1) s1)
    (hfail : ∀ s, P k0 s → body s k0 = Except.error e) :
    ∀ (d lo : Nat) (s : σ), k0 = lo + d → P lo s → forLoop lo hi body s = Except.error e := by
  intro d
  induction d with
  | zero =>
    intro lo s hd h0
    have : lo = k0 := by omega
    subst this
    rw [forLoop_step lo hi body s hk0, hfail s h0]
    rfl
  | succ d ih =>
    intro lo s hd h0
    obtain ⟨s1, e1, h1⟩ := hstep lo s (by omega) h0
    rw [forLoop_step lo hi body s (by omega), e1, bind_ok]
    exact ih (lo + 1) s1 (by omega) h1

/-- `copyMatrix` always returns an `n × n` matrix, `n = len(matrix)`, holding the first `n`
entries of every row (a short row padded with zeros). -/
theorem copyMatrix_spec (A : Mat) :
    ∃ M, copyMatrix A = Except.ok M ∧ Shape A.length A.length M ∧
      ∀ r c, r < A.length → c < A.length → ent M r c = ent A r c := by
  have key := forLoop_ok
    (fun k (s : Mat) => s.length = A.length ∧
      ∀ r, r < k → s.getD r [] = copySlice (List.replicate A.length (0 : ℚ)) (A.getD r []))
    A.length
    (fun newMatrix i => do
      let src ← readAt A i
      writeAt newMatrix i (copySlice (List.replicate A.length (0 : ℚ)) src))
    (by
      intro k s hk hP
      beta_reduce
      rw [readAt_ok A k [] hk, bind_ok, writeAt_ok _ _ _ (by omega)]
      refine ⟨_, rfl, by rw [List.length_set]; exact hP.1, ?_⟩
      intro r hr
      by_cases h : r = k
      · subst h; exact getD_set_eq _ _ _ _ (by omega)
      · rw [getD_set_ne _ _ _ _ _ (Ne.symm h)]; exact hP.2 r (by omega))
    A.length 0 (List.replicate A.length []) (by omega) ⟨by simp, by intro r hr; omega⟩
  obtain ⟨M, e, hlen, hrow⟩ := key
  refine ⟨M, e, ⟨hlen, ?_⟩, ?_⟩
  · intro r hr
    rw [hrow r hr, copySlice_length, List.length_replicate]
  · intro r c hr hc
    unfold ent
    rw [hrow r hr]
    exact copySlice_zeros_getD _ _ c hc

/-- The loop `Ai[j][i] = b[j]`, `j = 0 .. n-1`, when `b` has at least `n` entries. -/
theorem setColumn_spec {n : Nat} {M : Mat} (hS : Shape n n M) {i : Nat} (hi : i < n)
    (b : Vec) (hb : n ≤ b.length) :
    ∃ M1, forLoop 0 n (fun Ai j => do
        let bj ← readAt b j
        setEntry Ai j i bj) M = Except.ok M1 ∧ Shape n n M1 ∧
      ∀ r c, ent M1 r c = if r < n ∧ c = i then b.getD r 0 else ent M r c := by
  have key := forLoop_ok
    (fun k (s : Mat) => Shape n n s ∧
      ∀ r c, ent s r c = if r < k ∧ c = i then b.getD r 0 else ent M r c) n
    (fun Ai j => do
      let bj ← readAt b j
      setEntry Ai j i bj)
    (by
      intro k s hk hP
      obtain ⟨hSs, hent⟩ := hP
      beta_reduce
      rw [readAt_ok b k 0 (by omega), bind_ok, setEntry_ok hSs hk hi]
      refine ⟨_, rfl, shape_put hSs hk _ _, ?_⟩
      intro r c
      rw [ent_put hSs hk hi, hent r c]
      by_cases h1 : r = k ∧ c = i
      · obtain ⟨rfl, rfl⟩ := h1
        rw [if_pos ⟨rfl, rfl⟩, if_pos ⟨by omega, rfl⟩]
      · rw [if_neg h1]
        by_cases h2 : r < k ∧ c = i
        · rw [if_pos h2, if_pos ⟨by omega, h2.2⟩]
        · rw [if_neg h2, if_neg]
          intro h3
          apply h2
          refine ⟨?_, h3.2⟩
          have : r ≠ k := fun h => h1 ⟨h, h3.2⟩
          omega)
    n 0 M (by omega) ⟨hS, by intro r c; rw [if_neg]; omega⟩
  exact key

/-- The loop `Ai[j][i] = b[j]` stops with an index out of range when `b` is shorter than
`n`. -/
theorem setColumn_fails {n : Nat} {M : Mat} (hS : Shape n n M) {i : Nat} (hi : i < n)
    (b : Vec) (hb : b.length < n) :
    forLoop 0 n (fun Ai j => do
        let bj ← readAt b j
        setEntry Ai j i bj) M = Except.error Err.indexOutOfRange := by
  apply forLoop_fails (fun _ (s : Mat) => Shape n n s) n b.length Err.indexOutOfRange _ hb
    ?_ ?_ b.length 0 M (by omega) hS
  · intro k s hk hSs
    beta_reduce
    rw [readAt_ok b k 0 hk, bind_ok, setEntry_ok hSs (by omega) hi]
    exact ⟨_, rfl, shape_put hSs (by omega) _ _⟩
  · intro s _
    beta_reduce
    rw [readAt_error b b.length (le_refl _)]
    rfl

theorem submatrix_row {n i j : Nat} {M : Mat} (hS : Shape n n M) (hj : j + 1 < n)
    (sub : Mat) (hlen : sub.length = n - 1) (hrow : (sub.getD j []).length = n - 1) :
    ∃ s1, forLoop 0 (n - 1) (fun sub k => do
        let v ← getEntry M (j + 1) ((k + i + 1) % n)
        setEntry sub j k v) sub = Except.ok s1 ∧ s1.length = n - 1 ∧
      (∀ r, r ≠ j → s1.getD r [] = sub.getD r []) ∧ (s1.getD j []).length = n - 1 ∧
      ∀ k, k < n - 1 → ent s1 j k = ent M (j + 1) ((k + i + 1) % n) := by
  have key := forLoop_ok
    (fun kk (s : Mat) => s.length = n - 1 ∧ (∀ r, r ≠ j → s.getD r [] = sub.getD r []) ∧
      (s.getD j []).length = n - 1 ∧
      ∀ k, k < kk → ent s j k = ent M (j + 1) ((k + i + 1) % n)) (n - 1)
    (fun sub k => do
      let v ← getEntry M (j + 1) ((k + i + 1) % n)
      setEntry sub j k v)
    (by
      intro k s hk hP
      obtain ⟨hl, hother, hr, hdone⟩ := hP
      beta_reduce
      rw [getEntry_ok hS hj (Nat.mod_lt _ (by omega)), bind_ok,
        setEntry_row (by omega) (by omega)]
      refine ⟨_, rfl, by rw [List.length_set]; exact hl, ?_, ?_, ?_⟩
      · intro r hrj
        rw [getD_set_ne _ _ _ _ _ (Ne.symm hrj)]
        exact hother r hrj
      · rw [getD_set_eq _ _ _ _ (by omega), List.length_set]
        exact hr
      · intro k1 hk1
        unfold ent
        rw [getD_set_eq _ _ _ _ (by omega)]
        by_cases h : k1 = k
        · subst h
          rw [getD_set_eq _ _ _ _ (by omega)]
        · rw [getD_set_ne _ _ _ _ _ (Ne.symm h)]
          exact hdone k1 (by omega))
    (n - 1) 0 sub (by omega) ⟨hlen, fun r _ => rfl, hrow, by intro k hk; omega⟩
  exact key

/-- The minor of column `i` is always built for a square matrix, has shape
`(n-1) × (n-1)`, and its entry `(j, k)` is `matrix[j+1][(k+i+1) % n]`. -/
theorem submatrix_spec {n : Nat} {M : Mat} (hS : Shape n n M) (i : Nat) :
    ∃ S, submatrix M n i = Except.ok S ∧ Shape (n - 1) (n - 1) S ∧
      ∀ j k, j < n - 1 → k < n - 1 → ent S j k = ent M (j + 1) ((k + i + 1) % n) := by
  have key := forLoop_ok
    (fun jj (s : Mat) => s.length = n - 1 ∧ ∀ j, j < jj → (s.getD j []).length = n - 1 ∧
      ∀ k, k < n - 1 → ent s j k = ent M (j + 1) ((k + i + 1) % n)) (n - 1)
    (fun sub j => do
      let sub ← writeAt sub j (List.replicate (n - 1) (0 : ℚ))
      forLoop 0 (n - 1) (fun sub k => do
        let v ← getEntry M (j + 1) ((k + i + 1) % n)
        setEntry sub j k v) sub)
    (by
      intro j s hj hP
      obtain ⟨hl, hdone⟩ := hP
      beta_reduce
      rw [writeAt_ok _ _ _ (by omega), bind_ok]
      obtain ⟨s1, e1, hl1, hother, hr1, hent1⟩ := submatrix_row (i := i) (j := j) hS (by omega)
        (s.set j (List.replicate (n - 1) (0 : ℚ))) (by rw [List.length_set]; exact hl)
        (by rw [getD_set_eq _ _ _ _ (by omega), List.length_replicate])
      refine ⟨s1, e1, hl1, ?_⟩
      intro j1 hj1
      by_cases h : j1 = j
      · subst h
        exact ⟨hr1, hent1⟩
      · have hrow : s1.getD j1 [] = s.getD j1 [] := by
          rw [hother j1 h, getD_set_ne _ _ _ _ _ (Ne.symm h)]
        have := hdone j1 (by omega)
        unfold ent at this ⊢
        rw [hrow]
        exact this)
    (n - 1) 0 (List.replicate (n - 1) []) (by omega) ⟨by simp, by intro j hj; omega⟩
  obtain ⟨S, e, hl, h⟩ := key
  exact ⟨S, e, ⟨hl, fun r hr => (h r hr).1⟩, fun j k hj hk => (h j hj).2 k hk⟩

/-! ## `determinant` and the Cramer solvers -/

theorem determinantBody_total {n : Nat} {M : Mat} (hS : Shape n n M)
    (recur : Mat → Except Err ℚ)
    (hrec : ∀ S, 3 ≤ n → Shape (n - 1) (n - 1) S → ∃ d, recur S = Except.ok d) :
    ∃ d, determinantBody recur M = Except.ok d := by
  unfold determinantBody
  simp only [hS.1]
  by_cases h1 : n = 1
  · rw [if_pos h1]
    exact ⟨_, getEntry_ok hS (by omega) (by omega)⟩
  · rw [if_neg h1]
    by_cases h2 : n = 2
    · rw [if_pos h2, getEntry_ok hS (by omega) (by omega), bind_ok,
        getEntry_ok hS (by omega) (by omega), bind_ok, getEntry_ok hS (by omega) (by omega),
        bind_ok, getEntry_ok hS (by omega) (by omega), bind_ok]
      exact ⟨_, rfl⟩
    · rw [if_neg h2]
      have key := forLoop_ok (fun _ (_ : ℚ) => True) n
        (fun det i => do
          let sub ← submatrix M n i
          let m0i ← getEntry M 0 i
          let d ← recur sub
          pure (det + (-1) ^ i * m0i * d))
        (by
          intro k s hk _
          beta_reduce
          obtain ⟨S, e1, hS1, _⟩ := submatrix_spec hS k
          obtain ⟨d, e2⟩ := hrec S (by omega) hS1
          rw [e1, bind_ok, getEntry_ok hS (by omega) hk, bind_ok, e2, bind_ok]
          exact ⟨_, rfl, trivial⟩)
        n 0 0 (by omega) trivial
      obtain ⟨d, e, _⟩ := key
      exact ⟨d, e⟩

theorem determinantAux_total : ∀ (fuel n : Nat) (M : Mat), Shape n n M → n ≤ fuel + 2 →
    ∃ d, determinantAux fuel M = Except.ok d := by
  intro fuel
  induction fuel with
  | zero =>
    intro n M hS hn
    exact determinantBody_total hS _ (fun S h3 _ => by omega)
  | succ fuel ih =>
    intro n M hS hn
    exact determinantBody_total hS _ (fun S _ hS1 => ih (n - 1) S hS1 (by omega))

/-- On a square matrix `determinant` returns a value: no index is out of range and the
recursion ends. -/
theorem determinant_total {n : Nat} {M : Mat} (hS : Shape n n M) :
    ∃ d, determinant M = Except.ok d :=
  determinantAux_total M.length n M hS (by rw [hS.1]; omega)

theorem determinant_one {M : Mat} (hS : Shape 1 1 M) :
    determinant M = Except.ok (ent M 0 0) := by
  unfold determinant
  rw [hS.1]
  show determinantBody _ M = _
  unfold determinantBody
  simp only [hS.1, if_true]
  exact getEntry_ok hS (by omega) (by omega)

theorem determinant_two {M : Mat} (hS : Shape 2 2 M) :
    determinant M = Except.ok (ent M 0 0 * ent M 1 1 - ent M 0 1 * ent M 1 0) := by
  unfold determinant
  rw [hS.1]
  show determinantBody _ M = _
  unfold determinantBody
  simp only [hS.1]
  rw [if_pos True.intro, getEntry_ok hS (by omega) (by omega), bind_ok,
    getEntry_ok hS (by omega) (by omega), bind_ok, getEntry_ok hS (by omega) (by omega),
    bind_ok, getEntry_ok hS (by omega) (by omega), bind_ok]
  rfl

/-- The task of index `i`: with `b` long enough it returns `determinant(Ai) / detA`, where
`Ai` is the square copy of `A` with column `i` replaced by `b`; with `b` shorter than `n`
it stops with an index out of range. -/
theorem cramerEntry_spec (A : Mat) (b : Vec) (detA : ℚ) (hd : detA ≠ 0) (i : Nat)
    (hi : i < A.length) :
    (A.length ≤ b.length → ∃ M d, Shape A.length A.length M ∧
        (∀ r c, r < A.length → c < A.length →
          ent M r c = if c = i then b.getD r 0 else ent A r c) ∧
        determinant M = Except.ok d ∧
        cramerEntry A b A.length detA i = Except.ok (d / detA)) ∧
      (b.length < A.length →
        cramerEntry A b A.length detA i = Except.error Err.indexOutOfRange) := by
  obtain ⟨M0, e0, hS0, hent0⟩ := copyMatrix_spec A
  constructor
  · intro hb
    obtain ⟨M1, e1, hS1, hent1⟩ := setColumn_spec hS0 hi b hb
    obtain ⟨d, e2⟩ := determinant_total hS1
    refine ⟨M1, d, hS1, ?_, e2, ?_⟩
    · intro r c hr hc
      rw [hent1 r c]
      by_cases h : c = i
      · rw [if_pos ⟨hr, h⟩, if_pos h]
      · rw [if_neg (fun h1 => h h1.2), if_neg h, hent0 r c hr hc]
    · unfold cramerEntry
      rw [e0, bind_ok, e1, bind_ok, e2, bind_ok]
      unfold divide
      rw [if_neg hd]
  · intro hb
    unfold cramerEntry
    rw [e0, bind_ok, setColumn_fails hS0 hi b hb]
    rfl

/-- Filling `x[i] = f i` for the indices of `l`, in the order of `l`, when every `f i`
returns a value. -/
theorem fill_ok (n : Nat) (f : Nat → Except Err ℚ) (val : Nat → ℚ)
    (hf : ∀ i, i < n → f i = Except.ok (val i)) (l : List Nat) (hl : ∀ i, i ∈ l → i < n) :
    ∀ (x0 : Vec), x0.length = n →
      ∃ x1, l.foldlM (fun x i => do
          let v ← f i
          writeAt x i v) x0 = Except.ok x1 ∧ x1.length = n ∧
        ∀ i, x1.getD i 0 = if i ∈ l then val i else x0.getD i 0 := by
  induction l with
  | nil =>
    intro x0 h0
    exact ⟨x0, rfl, h0, fun i => by simp⟩
  | cons j l ih =>
    intro x0 h0
    have hj := hl j (List.mem_cons_self j l)
    obtain ⟨x1, e1, h1, hx1⟩ := ih (fun i hi => hl i (List.mem_cons_of_mem j hi))
      (x0.set j (val j)) (by rw [List.length_set]; exact h0)
    refine ⟨x1, ?_, h1, ?_⟩
    · rw [List.foldlM_cons, hf j hj, bind_ok, writeAt_ok _ _ _ (by omega), bind_ok]
      exact e1
    · intro i
      rw [hx1 i]
      by_cases hil : i ∈ l
      · rw [if_pos hil, if_pos (List.mem_cons_of_mem j hil)]
      · rw [if_neg hil]
        by_cases hij : i = j
        · rw [hij, getD_set_eq _ _ _ _ (by omega), if_pos (List.mem_cons_self j l)]
        · rw [getD_set_ne _ _ _ _ _ (Ne.symm hij), if_neg]
          intro h
          rcases List.mem_cons.mp h with h2 | h2
          · exact hij h2
          · exact hil h2

theorem fill_fails (n : Nat) (f : Nat → Except Err ℚ) (e : Err)
    (hf : ∀ i, i < n → f i = Except.error e) (l : List Nat) (hl : ∀ i, i ∈ l → i < n)
    (hne : l ≠ []) (x0 : Vec) :
    l.foldlM (fun x i => do
        let v ← f i
        writeAt x i v) x0 = Except.error e := by
  match l, hne with
  | j :: l, _ =>
    rw [List.foldlM_cons, hf j (hl j (List.mem_cons_self j l))]
    rfl

theorem vec_ext {n : Nat} {x y : Vec} (hx : x.length = n) (hy : y.length = n)
    (h : ∀ i, i < n → x.getD i 0 = y.getD i 0) : x = y := by
  apply List.ext_getElem (by rw [hx, hy])
  intro i h1 h2
  have := h i (by omega)
  rw [List.getD_eq_getElem?_getD, List.getD_eq_getElem?_getD, List.getElem?_eq_getElem h1,
    List.getElem?_eq_getElem h2] at this
  exact this

/-- The entries of the Cramer solvers can be computed in any order of the indices. -/
theorem cramerParallel_eq (order : List Nat) (A : Mat) (b : Vec)
    (horder : order.Perm (List.range A.length)) :
    cramerParallel order A b = cramerSequential A b := by
  unfold cramerParallel cramerSequential
  cases hdet : determinant A with
  | error e => rfl
  | ok detA =>
    rw [bind_ok, bind_ok]
    by_cases h0 : detA = 0
    · rw [if_pos h0, if_pos h0]
      rfl
    · rw [if_neg h0, if_neg h0]
      show order.foldlM _ _ = forLoop 0 A.length _ _
      unfold forLoop
      rw [Nat.sub_zero, ← List.range_eq_range']
      have hmem1 : ∀ i, i ∈ order → i < A.length :=
        fun i hi => List.mem_range.mp (horder.mem_iff.mp hi)
      have hmem2 : ∀ i, i ∈ List.range A.length → i < A.length :=
        fun i hi => List.mem_range.mp hi
      by_cases hb : A.length ≤ b.length
      · have hval : ∀ i, i < A.length → ∃ v, cramerEntry A b A.length detA i = Except.ok v := by
          intro i hi
          obtain ⟨M, d, _, _, _, e⟩ := (cramerEntry_spec A b detA h0 i hi).1 hb
          exact ⟨_, e⟩
        obtain ⟨x1, e1, l1, hx1⟩ := fill_ok A.length (cramerEntry A b A.length detA)
          (fun i => match cramerEntry A b A.length detA i with
            | Except.ok v => v
            | Except.error _ => 0)
          (by
            intro i hi
            obtain ⟨v, e⟩ := hval i hi
            beta_reduce
            rw [e]) order hmem1
          (List.replicate A.length (0 : ℚ)) (by simp)
        obtain ⟨x2, e2, l2, hx2⟩ := fill_ok A.length (cramerEntry A b A.length detA)
          (fun i => match cramerEntry A b A.length detA i with
            | Except.ok v => v
            | Except.error _ => 0)
          (by
            intro i hi
            obtain ⟨v, e⟩ := hval i hi
            beta_reduce
            rw [e]) (List.range A.length) hmem2
          (List.replicate A.length (0 : ℚ)) (by simp)
        rw [e1, e2]
        congr 1
        apply vec_ext l1 l2
        intro i hi
        rw [hx1 i, hx2 i, if_pos (horder.mem_iff.mpr (List.mem_range.mpr hi)),
          if_pos (List.mem_range.mpr hi)]
      · have hfail : ∀ i, i < A.length →
            cramerEntry A b A.length detA i = Except.error Err.indexOutOfRange :=
          fun i hi => (cramerEntry_spec A b detA h0 i hi).2 (by omega)
        have hne2 : List.range A.length ≠ [] := by
          intro h
          rw [List.range_eq_nil] at h
          omega
        have hne1 : order ≠ [] := by
          intro h
          rw [h] at horder
          exact hne2 (List.Perm.nil_eq horder).symm
        rw [fill_fails A.length _ _ hfail order hmem1 hne1,
          fill_fails A.length _ _ hfail _ hmem2 hne2]

/-! ## Gauss against Cramer -/

theorem shape_of_rows {n m : Nat} {A : Mat} (hA : A.length = n)
    (hrows : ∀ row, row ∈ A → row.length = m) : Shape n m A :=
  ⟨hA, fun r hr => hrows _ (getD_mem A r [] (by omega))⟩

theorem toMatrix_mulVec (n : Nat) (A : Mat) (x : Vec) (r : Fin n) :
    Matrix.mulVec (toMatrix n A) (vecFn n x) r =
      ∑ c ∈ Finset.range n, ent A r.val c * x.getD c 0 := by
  rw [Finset.sum_range]
  rfl

/-- A vector returned by `regularSLAU` is the one given by Cramer's rule with the true
determinants. -/
theorem regularSLAU_cramer (n : Nat) (A : Mat) (b x : Vec) (hA : A.length = n)
    (hb : b.length = n) (h : regularSLAU A b = Except.ok x) (i : Fin n) :
    x.getD i.val 0 = Matrix.cramer (toMatrix n A) (vecFn n b) i / (toMatrix n A).det := by
  have hdet := regularSLAU_ok_det A b x n hA hb h
  obtain ⟨_, hsum⟩ := regularSLAU_rows A b x n hA hb h
  have hmul : Matrix.mulVec (toMatrix n A) (vecFn n x) = vecFn n b := by
    funext r
    rw [toMatrix_mulVec, hsum r.val r.isLt]
    rfl
  have hcr : Matrix.cramer (toMatrix n A) (vecFn n b) = (toMatrix n A).det • vecFn n x := by
    rw [← hmul, Matrix.cramer_eq_adjugate_mulVec, Matrix.mulVec_mulVec, Matrix.adjugate_mul,
      Matrix.smul_mulVec_assoc, Matrix.one_mulVec]
  rw [hcr]
  show x.getD i.val 0 = (toMatrix n A).det * x.getD i.val 0 / (toMatrix n A).det
  field_simp

/-- Where `determinant` computes the true determinant of the `n × n` matrices, and that of
`A` is not zero, `cramerSequential` returns the vector of Cramer's rule. -/
theorem cramerSequential_spec (n : Nat) (A : Mat) (b : Vec) (hS : Shape n n A)
    (hb : b.length = n)
    (hdetfn : ∀ M, Shape n n M → determinant M = Except.ok (toMatrix n M).det)
    (hinv : (toMatrix n A).det ≠ 0) :
    ∃ x, cramerSequential A b = Except.ok x ∧ x.length = n ∧
      ∀ i : Fin n, x.getD i.val 0 =
        Matrix.cramer (toMatrix n A) (vecFn n b) i / (toMatrix n A).det := by
  have hA : A.length = n := hS.1
  subst hA
  have hentry : ∀ i, (hi : i < A.length) →
      cramerEntry A b A.length (toMatrix A.length A).det i =
        Except.ok (Matrix.cramer (toMatrix A.length A) (vecFn A.length b) ⟨i, hi⟩ /
          (toMatrix A.length A).det) := by
    intro i hi
    obtain ⟨M, d, hSM, hent, e1, e2⟩ :=
      (cramerEntry_spec A b _ hinv i hi).1 (by omega)
    rw [hdetfn M hSM] at e1
    cases e1
    rw [e2, Matrix.cramer_apply]
    congr 3
    funext r c
    show ent M r.val c.val = _
    rw [hent r.val c.val r.isLt c.isLt, Matrix.updateColumn_apply]
    by_cases hc : c.val = i
    · rw [if_pos hc, if_pos (Fin.ext hc)]
      rfl
    · rw [if_neg hc, if_neg (fun h => hc (congrArg Fin.val h))]
      rfl
  obtain ⟨x1, e1, l1, hx1⟩ := fill_ok A.length
    (cramerEntry A b A.length (toMatrix A.length A).det)
    (fun i => if hi : i < A.length then
      Matrix.cramer (toMatrix A.length A) (vecFn A.length b) ⟨i, hi⟩ /
        (toMatrix A.length A).det else 0)
    (by
      intro i hi
      beta_reduce
      rw [dif_pos hi]
      exact hentry i hi) (List.range A.length) (fun i hi => List.mem_range.mp hi)
    (List.replicate A.length (0 : ℚ)) (by simp)
  refine ⟨x1, ?_, l1, ?_⟩
  · unfold cramerSequential
    rw [hdetfn A hS, bind_ok, if_neg hinv]
    show forLoop 0 A.length _ _ = _
    unfold forLoop
    rw [Nat.sub_zero, ← List.range_eq_range']
    exact e1
  · intro i
    rw [hx1 i.val, if_pos (List.mem_range.mpr i.isLt), dif_pos i.isLt]

theorem determinant_eq_det_one (M : Mat) (hS : Shape 1 1 M) :
    determinant M = Except.ok (toMatrix 1 M).det := by
  rw [determinant_one hS, Matrix.det_fin_one]
  rfl

theorem determinant_eq_det_two (M : Mat) (hS : Shape 2 2 M) :
    determinant M = Except.ok (toMatrix 2 M).det := by
  rw [determinant_two hS, Matrix.det_fin_two]
  rfl

/-- For `n ≤ 2` the expansion of `determinant` is the closed formula of the determinant. -/
theorem determinant_eq_det_small (n : Nat) (hn1 : 1 ≤ n) (hn2 : n ≤ 2) (M : Mat)
    (hS : Shape n n M) : determinant M = Except.ok (toMatrix n M).det := by
  have h : n = 1 ∨ n = 2 := by omega
  rcases h with rfl | rfl
  · exact determinant_eq_det_one M hS
  · exact determinant_eq_det_two M hS

/-! ## Further facts on the Gaussian solvers -/

theorem shape_rows {R C : Nat} {m : Mat} (hS : Shape R C m) :
    ∀ row, row ∈ m → row.length = C := by
  intro row hrow
  obtain ⟨r, hr, hget⟩ := List.getElem_of_mem hrow
  have h := hS.2 r (by rw [← hS.1]; exact hr)
  rw [List.getD_eq_getElem?_getD, List.getElem?_eq_getElem hr] at h
  rw [← hget]
  exact h

/-- Rows of two matrices of one shape are equal when their entries are. -/
theorem row_ext {R C : Nat} {m1 m2 : Mat} (h1 : Shape R C m1) (h2 : Shape R C m2) (r : Nat)
    (h : ∀ c, c < C → ent m1 r c = ent m2 r c) : m1.getD r [] = m2.getD r [] := by
  by_cases hr : r < R
  · exact vec_ext (h1.2 r hr) (h2.2 r hr) h
  · rw [List.getD_eq_getElem?_getD, List.getD_eq_getElem?_getD,
      List.getElem?_eq_none (by rw [h1.1]; omega), List.getElem?_eq_none (by rw [h2.1]; omega)]

/-- A loop is its first iterations followed by the others. -/
theorem forLoop_split {σ : Type} (hi k : Nat) (f : σ → Nat → Except Err σ) (hk : k ≤ hi) :
    ∀ (d lo : Nat) (s : σ), k = lo + d →
      forLoop lo hi f s = forLoop lo k f s >>= forLoop k hi f := by
  intro d
  induction d with
  | zero =>
    intro lo s hd
    have : lo = k := by omega
    subst this
    rw [forLoop_done lo lo f s (le_refl lo), bind_ok]
  | succ d ih =>
    intro lo s hd
    rw [forLoop_step lo hi f s (by omega), forLoop_step lo k f s (by omega)]
    cases hf : f s lo with
    | error e => rfl
    | ok s1 =>
      rw [bind_ok, bind_ok]
      exact ih (lo + 1) s1 (by omega)

/-- A loop that stops with an error does so in some iteration `k`, the iterations before
`k` having returned a state. -/
theorem forLoop_error {σ : Type} (hi : Nat) (f : σ → Nat → Except Err σ) (e : Err) :
    ∀ (d lo : Nat) (s : σ), hi = lo + d → forLoop lo hi f s = Except.error e →
      ∃ k s1, lo ≤ k ∧ k < hi ∧ forLoop lo k f s = Except.ok s1 ∧ f s1 k = Except.error e := by
  intro d
  induction d with
  | zero =>
    intro lo s hd h
    rw [forLoop_done lo hi f s (by omega)] at h
    cases h
  | succ d ih =>
    intro lo s hd h
    rw [forLoop_step lo hi f s (by omega)] at h
    cases hf : f s lo with
    | error e1 =>
      rw [hf] at h
      have he : e1 = e := by
        cases h
        rfl
      exact ⟨lo, s, le_refl lo, by omega, forLoop_done lo lo f s (le_refl lo), by rw [hf, he]⟩
    | ok s1 =>
      rw [hf, bind_ok] at h
      obtain ⟨k, s2, h1, h2, h3, h4⟩ := ih (lo + 1) s1 (by omega) h
      refine ⟨k, s2, by omega, h2, ?_, h4⟩
      rw [forLoop_step lo k f s (by omega), hf, bind_ok]
      exact h3

/-- Every state of the elimination loop has the shape `n × (n+1)`. -/
theorem eliminate_prefix_shape {n : Nat} :
    ∀ (d k : Nat) (s ab : Mat), k + d ≤ n → Shape n (n + 1) s →
      forLoop k (k + d) (regularStep n) s = Except.ok ab → Shape n (n + 1) ab := by
  intro d
  induction d with
  | zero =>
    intro k s ab _ hs h
    rw [forLoop_done k (k + 0) _ s (by omega)] at h
    cases h
    exact hs
  | succ d ih =>
    intro k s ab hk hs h
    rw [forLoop_step k (k + (d + 1)) _ s (by omega)] at h
    cases hf : regularStep n s k with
    | error e =>
      rw [hf] at h
      cases h
    | ok s1 =>
      rw [hf, bind_ok] at h
      have h1 : k + (d + 1) = (k + 1) + d := by omega
      rw [h1] at h
      exact ih (k + 1) s1 ab (by omega) (regularStep_shape hs (by omega) hf) h

/-- Pivot step `i` stops with the singular-matrix error exactly when every entry of column
`i` in the rows `i .. n-1` is below `1e-10` in absolute value; it returns no other error. -/
theorem regularStep_error_iff {n : Nat} {ab : Mat} (hS : Shape n (n + 1) ab) {i : Nat}
    (hi : i < n) :
    (regularStep n ab i = Except.error Err.singularMatrix ↔
      ∀ r, i ≤ r → r < n → |ent ab r i| < pivotEps) ∧
    (∀ e, regularStep n ab i = Except.error e → e = Err.singularMatrix) := by
  obtain ⟨m, him, hmn, hmax, _, hcase⟩ := pivotRow_spec hS hi
  have hunf : regularStep n ab i =
      pivotRow ab n i >>= fun ab1 => (rowsBelow n i).foldlM (eliminateRow n i) ab1 := rfl
  rcases hcase with ⟨hsmall, e1⟩ | ⟨hbig, ab1, e1, hS1, _⟩
  · have herr : regularStep n ab i = Except.error Err.singularMatrix := by
      rw [hunf, e1]
      rfl
    refine ⟨⟨fun _ r h1 h2 => lt_of_le_of_lt (hmax r h1 h2) hsmall, fun _ => herr⟩, ?_⟩
    intro e he
    rw [herr] at he
    cases he
    rfl
  · obtain ⟨ab2, e2, _, _⟩ := eliminateRows_spec hi (rowsBelow n i) (nodup_rowsBelow n i)
      (fun j hj => (mem_rowsBelow n i j).mp hj) hS1
    have hok : regularStep n ab i = Except.ok ab2 := by
      rw [hunf, e1, bind_ok]
      exact e2
    refine ⟨⟨?_, ?_⟩, ?_⟩
    · intro h
      rw [hok] at h
      cases h
    · intro h
      exact absurd (h m him hmn) (not_lt.mpr hbig)
    · intro e he
      rw [hok] at he
      cases he

/-! ## Cramer's rule as the code computes it -/

theorem replaceColumn_getD (A : Mat) (i : Nat) (b : Vec) (r : Nat) (hr : r < A.length)
    (hb : r < b.length) :
    (replaceColumn A i b).getD r [] = (A.getD r []).set i (b.getD r 0) := by
  unfold replaceColumn
  simp [List.getD_eq_getElem?_getD, List.getElem?_zipWith', List.getElem?_eq_getElem hr,
    List.getElem?_eq_getElem hb]

theorem replaceColumn_shape {n : Nat} {A : Mat} (hS : Shape n n A) (i : Nat) (b : Vec)
    (hb : b.length = n) : Shape n n (replaceColumn A i b) := by
  refine ⟨?_, ?_⟩
  · unfold replaceColumn
    rw [List.length_zipWith, hS.1, hb, Nat.min_self]
  · intro r hr
    rw [replaceColumn_getD A i b r (by rw [hS.1]; exact hr) (by omega), List.length_set]
    exact hS.2 r hr

theorem replaceColumn_ent {n : Nat} {A : Mat} (hS : Shape n n A) {i : Nat} (hi : i < n)
    (b : Vec) (hb : b.length = n) (r c : Nat) (hr : r < n) :
    ent (replaceColumn A i b) r c = if c = i then b.getD r 0 else ent A r c := by
  unfold ent
  rw [replaceColumn_getD A i b r (by rw [hS.1]; exact hr) (by omega),
    getD_set _ _ _ _ _ (by rw [hS.2 r hr]; exact hi)]

/-- The entry of index `i` computed by the Cramer solvers, for `A` square and `b` of
length `n`, is `determinant(Ai) / detA` with `Ai` the matrix `A` with column `i` replaced
by `b`. -/
theorem cramerEntry_replaceColumn {n : Nat} {A : Mat} (hS : Shape n n A) (b : Vec)
    (hb : b.length = n) (detA : ℚ) (hd : detA ≠ 0) (i : Nat) (hi : i < n) :
    ∃ d, determinant (replaceColumn A i b) = Except.ok d ∧
      cramerEntry A b n detA i = Except.ok (d / detA) := by
  have hA : A.length = n := hS.1
  subst hA
  obtain ⟨M, d, hSM, hent, e1, e2⟩ := (cramerEntry_spec A b detA hd i hi).1 (by omega)
  have hM : M = replaceColumn A i b := by
    apply shape_ext hSM (replaceColumn_shape hS i b hb)
    intro r c hr hc
    rw [hent r c hr hc, replaceColumn_ent hS hi b hb r c hr]
  rw [hM] at e1
  exact ⟨d, e1, e2⟩

/-- The outcomes of `cramerSequential` on a square matrix `A` and a vector `b` of length
`n`: `determinant(A)` returns a value `detA`; the outcome is the no-unique-solution error
exactly when `detA = 0`, and otherwise the vector of the quotients
`determinant(Ai) / detA`. -/
theorem cramerSequential_outcome {n : Nat} {A : Mat} (hS : Shape n n A) (b : Vec)
    (hb : b.length = n) :
    ∃ detA, determinant A = Except.ok detA ∧
      (cramerSequential A b = Except.error Err.noUniqueSolution ↔ detA = 0) ∧
      (detA ≠ 0 → ∃ x, cramerSequential A b = Except.ok x ∧ x.length = n ∧
        ∀ i, i < n → ∃ d, determinant (replaceColumn A i b) = Except.ok d ∧
          x.getD i 0 = d / detA) := by
  have hA : A.length = n := hS.1
  obtain ⟨detA, hdet⟩ := determinant_total hS
  have hok : detA ≠ 0 → ∃ x, cramerSequential A b = Except.ok x ∧ x.length = n ∧
      ∀ i, i < n → ∃ d, determinant (replaceColumn A i b) = Except.ok d ∧
        x.getD i 0 = d / detA := by
    intro hd
    obtain ⟨x, e, hlen, hx⟩ := fill_ok n (cramerEntry A b n detA)
      (fun i => match determinant (replaceColumn A i b) with
        | Except.ok d => d / detA
        | Except.error _ => 0)
      (by
        intro i hi
        obtain ⟨d, e1, e2⟩ := cramerEntry_replaceColumn hS b hb detA hd i hi
        beta_reduce
        rw [e1, e2])
      (List.range n) (fun i hi => List.mem_range.mp hi) (List.replicate n (0 : ℚ)) (by simp)
    refine ⟨x, ?_, hlen, ?_⟩
    · unfold cramerSequential
      rw [hdet, bind_ok, if_neg hd, hA]
      show forLoop 0 n _ _ = _
      unfold forLoop
      rw [Nat.sub_zero, ← List.range_eq_range']
      exact e
    · intro i hi
      obtain ⟨d, e1, _⟩ := cramerEntry_replaceColumn hS b hb detA hd i hi
      refine ⟨d, e1, ?_⟩
      rw [hx i, if_pos (List.mem_range.mpr hi), e1]
  refine ⟨detA, hdet, ⟨?_, ?_⟩, hok⟩
  · intro h
    by_contra hd
    obtain ⟨x, e, _⟩ := hok hd
    rw [e] at h
    cases h
  · intro h0
    unfold cramerSequential
    rw [hdet, bind_ok, if_pos h0]
    rfl

/-- With enough fuel the result of the recursion of `determinant` does not depend on the
fuel: on a square matrix of order `n` every budget of at least `n - 2` unfoldings gives the
same value. -/
theorem determinantAux_fuel : ∀ (fuel1 fuel2 n : Nat) (M : Mat), Shape n n M →
    n ≤ fuel1 + 2 → n ≤ fuel2 + 2 → determinantAux fuel1 M = determinantAux fuel2 M := by
  intro fuel1
  induction fuel1 with
  | zero =>
    intro fuel2 n M hS h1 _
    cases fuel2 with
    | zero => rfl
    | succ f2 =>
      show determinantBody _ M = determinantBody _ M
      unfold determinantBody
      simp only [hS.1]
      by_cases hn1 : n = 1
      · rw [if_pos hn1, if_pos hn1]
      · rw [if_neg hn1, if_neg hn1]
        by_cases hn2 : n = 2
        · rw [if_pos hn2, if_pos hn2]
        · have hn0 : n = 0 := by omega
          rw [if_neg hn2, if_neg hn2, hn0, forLoop_done 0 0 _ _ (le_refl 0),
            forLoop_done 0 0 _ _ (le_refl 0)]
  | succ f1 ih =>
    intro fuel2 n M hS h1 h2
    cases fuel2 with
    | zero =>
      show determinantBody _ M = determinantBody _ M
      unfold determinantBody
      simp only [hS.1]
      by_cases hn1 : n = 1
      · rw [if_pos hn1, if_pos hn1]
      · rw [if_neg hn1, if_neg hn1]
        by_cases hn2 : n = 2
        · rw [if_pos hn2, if_pos hn2]
        · have hn0 : n = 0 := by omega
          rw [if_neg hn2, if_neg hn2, hn0, forLoop_done 0 0 _ _ (le_refl 0),
            forLoop_done 0 0 _ _ (le_refl 0)]
    | succ f2 =>
      show determinantBody _ M = determinantBody _ M
      unfold determinantBody
      simp only [hS.1]
      by_cases hn1 : n = 1
      · rw [if_pos hn1, if_pos hn1]
      · rw [if_neg hn1, if_neg hn1]
        by_cases hn2 : n = 2
        · rw [if_pos hn2, if_pos hn2]
        · rw [if_neg hn2, if_neg hn2]
          apply forLoop_congr (fun _ => True) n _ _ ?_ (fun _ _ _ _ _ _ => trivial) n 0 0
            (by omega) trivial
          intro k s _ _
          beta_reduce
          obtain ⟨S, e1, hS1, _⟩ := submatrix_spec hS k
          rw [e1, bind_ok, bind_ok, ih f2 (n - 1) S hS1 (by omega) (by omega)]

/-! ## When `regularSLAU` returns the singular-matrix error -/

/-- On an input with `len(a) = len(b) = n`, `regularSLAU` returns the singular-matrix
error exactly when some pivot step `i`, reached on the working matrix `ab` left by the `i`
steps before it, finds every entry of column `i` in the rows `i .. n-1` below `1e-10` in
absolute value; it returns no other error. -/
theorem regularSLAU_error_iff (a : Mat) (b : Vec) (n : Nat) (ha : a.length = n)
    (hb : b.length = n) :
    ∃ ab0, augment a b n = Except.ok ab0 ∧
      (regularSLAU a b = Except.error Err.singularMatrix ↔
        ∃ i ab, i < n ∧ forLoop 0 i (regularStep n) ab0 = Except.ok ab ∧
          ∀ r, i ≤ r → r < n → |ent ab r i| < pivotEps) ∧
      (∀ e, regularSLAU a b = Except.error e → e = Err.singularMatrix) := by
  obtain ⟨ab0, e0, hS0, _, hcase⟩ := regularSLAU_cases a b n ha hb
  refine ⟨ab0, e0, ⟨?_, ?_⟩, ?_⟩
  · intro h
    rcases hcase with ⟨e1, _⟩ | ⟨_, x, _, _, e2, _, _⟩
    · obtain ⟨k, s1, _, hk, hpre, hstep⟩ := forLoop_error n (regularStep n) _ n 0 ab0
        (by omega) e1
      have hS1 : Shape n (n + 1) s1 :=
        eliminate_prefix_shape k 0 ab0 s1 (by omega) hS0 (by rw [Nat.zero_add]; exact hpre)
      exact ⟨k, s1, hk, hpre, (regularStep_error_iff hS1 hk).1.mp hstep⟩
    · rw [e2] at h
      cases h
  · intro h
    obtain ⟨i, ab, hi, hpre, hsmall⟩ := h
    have hS1 : Shape n (n + 1) ab :=
      eliminate_prefix_shape i 0 ab0 ab (by omega) hS0 (by rw [Nat.zero_add]; exact hpre)
    have hstep := (regularStep_error_iff hS1 hi).1.mpr hsmall
    have hloop : forLoop 0 n (regularStep n) ab0 = Except.error Err.singularMatrix := by
      rw [forLoop_split n i (regularStep n) (by omega) i 0 ab0 (by omega), hpre, bind_ok,
        forLoop_step i n _ ab hi, hstep]
      rfl
    rcases hcase with ⟨_, e2⟩ | ⟨_, _, e1, _, _, _, _⟩
    · exact e2
    · rw [hloop] at e1
      cases e1
  · intro e he
    rcases hcase with ⟨_, e2⟩ | ⟨_, _, _, _, e2, _, _⟩
    · rw [e2] at he
      cases he
      rfl
    · rw [e2] at he
      cases he

/-! ## The claims -/

/-- C1: Gaussian round trip. If `regularSLAU A b` returns a vector `x` for an `n × n`
matrix `A` and a vector `b` of length `n`, then `x` has length `n` and `A·x = b`. -/
theorem regularSLAU_round_trip (A : Mat) (b x : Vec) (n : Nat) (hA : A.length = n)
    (hrows : ∀ row, row ∈ A → row.length = n) (hb : b.length = n)
    (h : regularSLAU A b = Except.ok x) : x.length = n ∧ matVec A x = b := by
  obtain ⟨hlen, hsum⟩ := regularSLAU_rows A b x n hA hb h
  refine ⟨hlen, ?_⟩
  have hl : (matVec A x).length = b.length := by
    unfold matVec
    rw [List.length_map, hA, hb]
  apply List.ext_getElem hl
  intro r h1 h2
  have hr : r < n := by rw [← hb]; exact h2
  have e1 := matVec_getD A x n hrows hlen r (by omega)
  rw [hsum r hr] at e1
  rw [List.getD_eq_getElem?_getD, List.getD_eq_getElem?_getD, List.getElem?_eq_getElem h1,
    List.getElem?_eq_getElem h2] at e1
  exact e1

/-- C1 at `A = [[2,1],[1,3]]`, `b = [3,5]`, where `regularSLAU` returns `[4/5, 7/5]`. -/
theorem regularSLAU_round_trip_witness :
    regularSLAU [[2, 1], [1, 3]] [3, 5] = Except.ok [4 / 5, 7 / 5] ∧
      ([4 / 5, 7 / 5] : Vec).length = 2 ∧ matVec [[2, 1], [1, 3]] [4 / 5, 7 / 5] = [3, 5] :=
  ⟨by decide!,
    regularSLAU_round_trip [[2, 1], [1, 3]] [3, 5] [4 / 5, 7 / 5] 2 rfl
      (by intro row hrow; simp at hrow; rcases hrow with h | h <;> rw [h] <;> rfl) rfl
      (by decide!)⟩

/-- C2 fails on the code: for `M = [[0,1,0],[1,0,0],[0,0,1]]` the function `determinant`
returns `1`, and the determinant of `M` is `-1`. -/
theorem determinant_wrong_at_three :
    determinant [[0, 1, 0], [1, 0, 0], [0, 0, 1]] = Except.ok 1 ∧
      (toMatrix 3 [[0, 1, 0], [1, 0, 0], [0, 0, 1]]).det = -1 := by
  refine ⟨by decide!, ?_⟩
  rw [Matrix.det_fin_three]
  simp [toMatrix, ent]

/-- C3 fails on the code: for `A = [[1,0,0],[1,1,0],[0,0,1]]`, `b = [1,2,3]` the function
`cramerSequential` returns `x = [1,3,3]` without error, and `A·x = [1,4,3]` is not `b`. -/
theorem cramer_round_trip_fails :
    cramerSequential [[1, 0, 0], [1, 1, 0], [0, 0, 1]] [1, 2, 3] = Except.ok [1, 3, 3] ∧
      matVec [[1, 0, 0], [1, 1, 0], [0, 0, 1]] [1, 3, 3] = [1, 4, 3] ∧
      matVec [[1, 0, 0], [1, 1, 0], [0, 0, 1]] [1, 3, 3] ≠ [1, 2, 3] := by
  refine ⟨by decide!, by decide!, by decide!⟩

/-- C4: for every matrix `a` and vector `b`, `parallelSLAU` returns the same outcome as
`regularSLAU` (the same error, or the same solution vector), whatever order `sched i` the
per-row elimination tasks of each pivot step `i` are executed in. -/
theorem parallelSLAU_eq_regularSLAU (sched : Nat → List Nat) (a : Mat) (b : Vec)
    (hsched : ∀ i, i < a.length → (sched i).Perm (List.range' (i + 1) (a.length - (i + 1)))) :
    parallelSLAU sched a b = regularSLAU a b :=
  parallelSLAU_eq sched a b hsched

/-- C4 at a `3 × 3` system, the rows of pivot step `0` eliminated in the order `2, 1`. -/
theorem parallelSLAU_eq_regularSLAU_witness :
    parallelSLAU (fun i => if i = 0 then [2, 1] else if i = 1 then [2] else [])
        [[2, 1, 0], [1, 3, 1], [0, 1, 4]] [3, 5, 6] =
      regularSLAU [[2, 1, 0], [1, 3, 1], [0, 1, 4]] [3, 5, 6] :=
  parallelSLAU_eq_regularSLAU _ _ _ (by
    intro i hi
    have h3 : i < 3 := hi
    interval_cases i
    · exact List.Perm.swap 1 2 []
    · exact List.Perm.refl _
    · exact List.Perm.refl _)

/-- C5, as stated, fails: the `1 × 1` matrix `[[10⁻¹¹]]` is invertible, and `regularSLAU`
returns the singular-matrix error on it because the pivot is below `1e-10`. -/
theorem gauss_cramer_counterexample :
    ¬ (∀ (n : Nat) (A : Mat) (b : Vec), 1 ≤ n → A.length = n →
        (∀ row, row ∈ A → row.length = n) → b.length = n → (toMatrix n A).det ≠ 0 →
        ∃ x, regularSLAU A b = Except.ok x ∧ cramerSequential A b = Except.ok x) := by
  intro h
  obtain ⟨x, h1, _⟩ := h 1 [[1 / 10 ^ 11]] [1] (le_refl 1) rfl
    (by intro row hrow; simp at hrow; rw [hrow]; rfl) rfl
    (by
      rw [Matrix.det_fin_one]
      show ent [[1 / 10 ^ 11]] 0 0 ≠ 0
      unfold ent
      norm_num)
  have h2 : regularSLAU [[1 / 10 ^ 11]] [1] = Except.error Err.singularMatrix := by decide!
  rw [h2] at h1
  cases h1

/-- C5, amended: for an invertible `n × n` matrix `A` with `n ≤ 2` and a vector `b` of
length `n`, `cramerSequential` returns a solution `x`, and `regularSLAU` returns either the
same `x`, entry for entry, every pivot step it reaches finding an entry of magnitude at
least `1e-10` in its column, or the singular-matrix error, and this only when some pivot
step `i`, on the working matrix `ab` left by the steps before it, finds every entry of
column `i` in the rows `i .. n-1` below `1e-10` in magnitude. -/
theorem gauss_cramer_agree (n : Nat) (A : Mat) (b : Vec) (hn1 : 1 ≤ n) (hn2 : n ≤ 2)
    (hA : A.length = n) (hrows : ∀ row, row ∈ A → row.length = n) (hb : b.length = n)
    (hinv : (toMatrix n A).det ≠ 0) :
    ∃ x ab0, cramerSequential A b = Except.ok x ∧ augment A b n = Except.ok ab0 ∧
      ((regularSLAU A b = Except.ok x ∧
          ∀ i ab, i < n → forLoop 0 i (regularStep n) ab0 = Except.ok ab →
            ∃ r, i ≤ r ∧ r < n ∧ pivotEps ≤ |ent ab r i|) ∨
        (regularSLAU A b = Except.error Err.singularMatrix ∧
          ∃ i ab, i < n ∧ forLoop 0 i (regularStep n) ab0 = Except.ok ab ∧
            ∀ r, i ≤ r → r < n → |ent ab r i| < pivotEps)) := by
  obtain ⟨x, e, hlen, hx⟩ := cramerSequential_spec n A b (shape_of_rows hA hrows) hb
    (determinant_eq_det_small n hn1 hn2) hinv
  obtain ⟨ab0, e0, hiff, _⟩ := regularSLAU_error_iff A b n hA hb
  refine ⟨x, ab0, e, e0, ?_⟩
  obtain ⟨_, _, _, _, hcase⟩ := regularSLAU_cases A b n hA hb
  rcases hcase with ⟨_, e1⟩ | ⟨_, y, _, _, e1, hleny, _⟩
  · exact Or.inr ⟨e1, hiff.mp e1⟩
  · left
    have hxy : y = x := by
      apply vec_ext hleny hlen
      intro i hi
      rw [regularSLAU_cramer n A b y hA hb e1 ⟨i, hi⟩, hx ⟨i, hi⟩]
    refine ⟨by rw [e1, hxy], ?_⟩
    intro i ab hi hpre
    by_contra hno
    have hsmall : ∀ r, i ≤ r → r < n → |ent ab r i| < pivotEps := by
      intro r h1 h2
      by_contra h3
      exact hno ⟨r, h1, h2, not_lt.mp h3⟩
    have herr := hiff.mpr ⟨i, ab, hi, hpre, hsmall⟩
    rw [e1] at herr
    cases herr

/-- C5, amended, at `A = [[2,1],[1,3]]`, `b = [3,5]`, where both solvers return
`[4/5, 7/5]`. -/
theorem gauss_cramer_agree_witness :
    (toMatrix 2 [[2, 1], [1, 3]]).det ≠ 0 ∧
      cramerSequential [[2, 1], [1, 3]] [3, 5] = Except.ok [4 / 5, 7 / 5] ∧
      regularSLAU [[2, 1], [1, 3]] [3, 5] = Except.ok [4 / 5, 7 / 5] ∧
      ∃ x ab0, cramerSequential [[2, 1], [1, 3]] [3, 5] = Except.ok x ∧
        augment [[2, 1], [1, 3]] [3, 5] 2 = Except.ok ab0 ∧
        ((regularSLAU [[2, 1], [1, 3]] [3, 5] = Except.ok x ∧
            ∀ i ab, i < 2 → forLoop 0 i (regularStep 2) ab0 = Except.ok ab →
              ∃ r, i ≤ r ∧ r < 2 ∧ pivotEps ≤ |ent ab r i|) ∨
          (regularSLAU [[2, 1], [1, 3]] [3, 5] = Except.error Err.singularMatrix ∧
            ∃ i ab, i < 2 ∧ forLoop 0 i (regularStep 2) ab0 = Except.ok ab ∧
              ∀ r, i ≤ r → r < 2 → |ent ab r i| < pivotEps)) :=
  have hdet : (toMatrix 2 [[2, 1], [1, 3]]).det ≠ 0 := by
    rw [Matrix.det_fin_two]
    simp [toMatrix, ent]
    norm_num
  ⟨hdet, by decide!, by decide!,
    gauss_cramer_agree 2 [[2, 1], [1, 3]] [3, 5] (by decide) (le_refl 2) rfl
      (by intro row hrow; simp at hrow; rcases hrow with h | h <;> rw [h] <;> rfl) rfl hdet⟩

/-- C6: `cramerParallel` returns the same outcome as `cramerSequential` (the same error, or
the same solution vector entry for entry), whatever order `order` of the indices
`0 .. n-1` the per-index tasks are executed in. -/
theorem cramerParallel_eq_cramerSequential (order : List Nat) (A : Mat) (b : Vec)
    (_hsquare : ∀ row, row ∈ A → row.length = A.length)
    (horder : order.Perm (List.range A.length)) :
    cramerParallel order A b = cramerSequential A b :=
  cramerParallel_eq order A b horder

/-- C6 at a `2 × 2` system, the entry of index `1` computed before that of index `0`. -/
theorem cramerParallel_eq_cramerSequential_witness :
    [1, 0].Perm (List.range 2) ∧
      cramerParallel [1, 0] [[2, 1], [1, 3]] [3, 5] =
        cramerSequential [[2, 1], [1, 3]] [3, 5] :=
  ⟨List.Perm.swap 0 1 [],
    cramerParallel_eq_cramerSequential [1, 0] [[2, 1], [1, 3]] [3, 5]
      (by intro row hrow; simp at hrow; rcases hrow with h | h <;> rw [h] <;> rfl)
      (List.Perm.swap 0 1 [])⟩

/-- C7: when `len(a) ≠ len(b)` both Gaussian solvers return the dimension-mismatch error
and no solution: the outcome is that of the first test of the function, which precedes the
construction of the working matrix and the pivot loop. -/
theorem gauss_dimension_mismatch (sched : Nat → List Nat) (a : Mat) (b : Vec)
    (h : a.length ≠ b.length) :
    regularSLAU a b = Except.error Err.dimensionMismatch ∧
      parallelSLAU sched a b = Except.error Err.dimensionMismatch := by
  unfold regularSLAU parallelSLAU
  simp only [ne_eq, h, not_false_eq_true, if_true, and_self]

/-- C7 at a matrix of two rows and a vector of three entries. -/
theorem gauss_dimension_mismatch_witness :
    ([[1, 2], [3, 4]] : Mat).length ≠ ([1, 2, 3] : Vec).length ∧
      regularSLAU [[1, 2], [3, 4]] [1, 2, 3] = Except.error Err.dimensionMismatch ∧
      parallelSLAU (fun _ => []) [[1, 2], [3, 4]] [1, 2, 3] =
        Except.error Err.dimensionMismatch :=
  ⟨by decide, gauss_dimension_mismatch (fun _ => []) [[1, 2], [3, 4]] [1, 2, 3] (by decide)⟩

/-- C8: for `n ≥ 1`, an `n × n` matrix `A` with an all-zero row or two identical rows and a
vector `b` of length `n`, `regularSLAU` and `parallelSLAU` (the row tasks of each pivot
step run in any order) return the singular-matrix error, never a solution. -/
theorem gauss_singular (sched : Nat → List Nat) (A : Mat) (b : Vec) (n : Nat) (_hn : 1 ≤ n)
    (hA : A.length = n) (_hrows : ∀ row, row ∈ A → row.length = n) (hb : b.length = n)
    (hsched : ∀ i, i < n → (sched i).Perm (List.range' (i + 1) (n - (i + 1))))
    (hsing : HasZeroRow A ∨ HasEqualRows A) :
    regularSLAU A b = Except.error Err.singularMatrix ∧
      parallelSLAU sched A b = Except.error Err.singularMatrix := by
  have hdet : (toMatrix n A).det = 0 := by
    rcases hsing with h | h
    · exact det_zero_of_hasZeroRow n A hA h
    · exact det_zero_of_hasEqualRows n A hA h
  have h1 := regularSLAU_det_zero A b n hA hb hdet
  refine ⟨h1, ?_⟩
  rw [parallelSLAU_eq sched A b (by rw [hA]; exact hsched)]
  exact h1

/-- C8 at the witness of the claim, `A = [[1,1],[1,1]]`, `b = [2,2]`. -/
theorem gauss_singular_witness :
    HasEqualRows [[1, 1], [1, 1]] ∧
      regularSLAU [[1, 1], [1, 1]] [2, 2] = Except.error Err.singularMatrix ∧
      parallelSLAU (fun i => if i = 0 then [1] else []) [[1, 1], [1, 1]] [2, 2] =
        Except.error Err.singularMatrix :=
  ⟨⟨0, 1, by decide, by decide, rfl⟩,
    gauss_singular (fun i => if i = 0 then [1] else []) [[1, 1], [1, 1]] [2, 2] 2 (by decide)
      rfl (by intro row hrow; simp at hrow; rw [hrow]; rfl) rfl
      (by
        intro i hi
        interval_cases i
        · exact List.Perm.refl _
        · exact List.Perm.refl _)
      (Or.inr ⟨0, 1, by decide, by decide, rfl⟩)⟩

/-- C9 fails on the code: `A = [[1,1,0],[1,1,0],[0,0,1]]` has two identical rows, and
`cramerSequential` returns the vector `[3/2, 3/2, 3]` for `b = [1,2,3]`, not the
no-unique-solution error; `determinant` returns `2` on this singular matrix. -/
theorem cramer_singular_fails :
    HasEqualRows [[1, 1, 0], [1, 1, 0], [0, 0, 1]] ∧
      determinant [[1, 1, 0], [1, 1, 0], [0, 0, 1]] = Except.ok 2 ∧
      cramerSequential [[1, 1, 0], [1, 1, 0], [0, 0, 1]] [1, 2, 3] =
        Except.ok [3 / 2, 3 / 2, 3] := by
  refine ⟨⟨0, 1, by decide, by decide, rfl⟩, by decide!, by decide!⟩

/-- C10, as stated, fails: the `2 × 3` system `[[1,0,5],[0,1,7]]`, `[1,2]` has a row whose
length differs from `n = 2`, and `regularSLAU` returns the solution `[1,2]`, not an error. -/
theorem gauss_nonsquare_counterexample :
    ¬ (∀ (a : Mat) (b : Vec), a.length = b.length →
        (∃ row, row ∈ a ∧ row.length ≠ a.length) →
        ∃ e, regularSLAU a b = Except.error e) := by
  intro h
  obtain ⟨e, he⟩ := h [[1, 0, 5], [0, 1, 7]] [1, 2] rfl ⟨[1, 0, 5], by simp, by decide⟩
  have h1 : regularSLAU [[1, 0, 5], [0, 1, 7]] [1, 2] = Except.ok [1, 2] := by decide!
  rw [h1] at he
  cases he

/-- C10, amended: a matrix whose rows are not all of length `n` is repaired silently: both
Gaussian solvers return what they return on the square matrix obtained by cutting every row
to `n` entries and padding the short ones with zeros. -/
theorem gauss_nonsquare_repaired (sched : Nat → List Nat) (a : Mat) (b : Vec) :
    (squared a).length = a.length ∧
      (∀ row, row ∈ squared a → row.length = a.length) ∧
      regularSLAU a b = regularSLAU (squared a) b ∧
      parallelSLAU sched a b = parallelSLAU sched (squared a) b :=
  ⟨squared_length a, squared_rows a, regularSLAU_squared a b, parallelSLAU_squared sched a b⟩

/-- C11: for `n ≥ 1`, an `n × n` matrix `A` and a vector `b` of length `n`, `determinant(A)`
returns a value `detA`; `cramerSequential` returns the no-unique-solution error if and only
if `detA = 0`, and otherwise a vector `x` of length `n` with
`x[i] = determinant(Ai) / detA` for every `i < n`, where `Ai` is `A` with column `i`
replaced by `b`. -/
theorem cramerSequential_rule (A : Mat) (b : Vec) (n : Nat) (_hn : 1 ≤ n) (hA : A.length = n)
    (hrows : ∀ row, row ∈ A → row.length = n) (hb : b.length = n) :
    ∃ detA, determinant A = Except.ok detA ∧
      (cramerSequential A b = Except.error Err.noUniqueSolution ↔ detA = 0) ∧
      (detA ≠ 0 → ∃ x, cramerSequential A b = Except.ok x ∧ x.length = n ∧
        ∀ i, i < n → ∃ d, determinant (replaceColumn A i b) = Except.ok d ∧
          x.getD i 0 = d / detA) :=
  cramerSequential_outcome (shape_of_rows hA hrows) b hb

/-- C11 at `A = [[2,1],[1,3]]`, `b = [3,5]`: `detA = 5`, `x = [4/5, 7/5]`. -/
theorem cramerSequential_rule_witness :
    determinant [[2, 1], [1, 3]] = Except.ok 5 ∧
      cramerSequential [[2, 1], [1, 3]] [3, 5] = Except.ok [4 / 5, 7 / 5] ∧
      ∃ detA, determinant [[2, 1], [1, 3]] = Except.ok detA ∧
        (cramerSequential [[2, 1], [1, 3]] [3, 5] = Except.error Err.noUniqueSolution ↔
          detA = 0) ∧
        (detA ≠ 0 → ∃ x, cramerSequential [[2, 1], [1, 3]] [3, 5] = Except.ok x ∧
          x.length = 2 ∧
          ∀ i, i < 2 → ∃ d, determinant (replaceColumn [[2, 1], [1, 3]] i [3, 5]) =
            Except.ok d ∧ x.getD i 0 = d / detA) :=
  ⟨by decide!, by decide!,
    cramerSequential_rule [[2, 1], [1, 3]] [3, 5] 2 (by decide) rfl
      (by intro row hrow; simp at hrow; rcases hrow with h | h <;> rw [h] <;> rfl) rfl⟩

/-- C12: for `len(a) = len(b) = n`, `regularSLAU` returns the singular-matrix error if and
only if at some pivot step `i < n`, the steps before it having passed and left the working
matrix `ab`, the largest magnitude in column `i` over the rows `i .. n-1` is strictly below
`1e-10` (every such entry is); a magnitude of `1e-10` or more is accepted.  The outcome is
then the error alone, and it is the only error of `regularSLAU` on such an input. -/
theorem regularSLAU_singular_iff (a : Mat) (b : Vec) (n : Nat) (ha : a.length = n)
    (hb : b.length = n) :
    ∃ ab0, augment a b n = Except.ok ab0 ∧
      (regularSLAU a b = Except.error Err.singularMatrix ↔
        ∃ i ab, i < n ∧ forLoop 0 i (regularStep n) ab0 = Except.ok ab ∧
          ∀ r, i ≤ r → r < n → |ent ab r i| < pivotEps) ∧
      (∀ e, regularSLAU a b = Except.error e → e = Err.singularMatrix) :=
  regularSLAU_error_iff a b n ha hb

/-- C12 at `a = [[1,1],[1,1]]`, `b = [2,2]`, where step `0` passes and step `1` finds only
`0`; a pivot of magnitude exactly `1e-10` is accepted. -/
theorem regularSLAU_singular_iff_witness :
    regularSLAU [[1, 1], [1, 1]] [2, 2] = Except.error Err.singularMatrix ∧
      regularSLAU [[1 / 10 ^ 10]] [1] = Except.ok [10 ^ 10] ∧
      ∃ ab0, augment [[1, 1], [1, 1]] [2, 2] 2 = Except.ok ab0 ∧
        (regularSLAU [[1, 1], [1, 1]] [2, 2] = Except.error Err.singularMatrix ↔
          ∃ i ab, i < 2 ∧ forLoop 0 i (regularStep 2) ab0 = Except.ok ab ∧
            ∀ r, i ≤ r → r < 2 → |ent ab r i| < pivotEps) ∧
        (∀ e, regularSLAU [[1, 1], [1, 1]] [2, 2] = Except.error e →
          e = Err.singularMatrix) :=
  ⟨by decide!, by decide!, regularSLAU_singular_iff [[1, 1], [1, 1]] [2, 2] 2 rfl rfl⟩

/-- C13: at pivot step `i` of `regularSLAU` and `parallelSLAU`, on a working matrix `ab` of
shape `n × (n+1)`, the pivot search returns a row `maxRow` with `i ≤ maxRow < n`,
`|ab[maxRow][i]| ≥ |ab[r][i]|` for every row `r` of `i .. n-1`, and
`|ab[r][i]| < |ab[maxRow][i]|` for every `r` of `i .. maxRow-1`: ties go to the lowest
index.  Every state of the elimination loop has this shape. -/
theorem pivot_search (n : Nat) (ab : Mat) (i : Nat) (hS : Shape n (n + 1) ab) (hi : i < n) :
    ∃ maxRow, findPivot ab n i = Except.ok maxRow ∧ i ≤ maxRow ∧ maxRow < n ∧
      (∀ r, i ≤ r → r < n → |ent ab r i| ≤ |ent ab maxRow i|) ∧
      (∀ r, i ≤ r → r < maxRow → |ent ab r i| < |ent ab maxRow i|) :=
  findPivot_spec hS hi

/-- C13 at the witness of the claim: for `A = [[1,5],[3,2]]` step `0` selects row `1`. -/
theorem pivot_search_witness :
    augment [[1, 5], [3, 2]] [0, 0] 2 = Except.ok [[1, 5, 0], [3, 2, 0]] ∧
      findPivot [[1, 5, 0], [3, 2, 0]] 2 0 = Except.ok 1 ∧
      ∃ maxRow, findPivot [[1, 5, 0], [3, 2, 0]] 2 0 = Except.ok maxRow ∧ 0 ≤ maxRow ∧
        maxRow < 2 ∧
        (∀ r, 0 ≤ r → r < 2 →
          |ent [[1, 5, 0], [3, 2, 0]] r 0| ≤ |ent [[1, 5, 0], [3, 2, 0]] maxRow 0|) ∧
        (∀ r, 0 ≤ r → r < maxRow →
          |ent [[1, 5, 0], [3, 2, 0]] r 0| < |ent [[1, 5, 0], [3, 2, 0]] maxRow 0|) :=
  ⟨by decide!, by decide!,
    pivot_search 2 [[1, 5, 0], [3, 2, 0]] 0
      ⟨rfl, by intro r hr; interval_cases r <;> rfl⟩ (by decide)⟩

/-- C14: for an `n × n` matrix `A` and a vector `b` of length `n`, the working matrix `ab`
with which `regularSLAU` and `parallelSLAU` start has exactly `n` rows, each of length
`n+1`, with `ab[i][k] = A[i][k]` for `k < n` and `ab[i][n] = b[i]`. -/
theorem augmented_matrix (sched : Nat → List Nat) (A : Mat) (b : Vec) (n : Nat)
    (hA : A.length = n) (_hrows : ∀ row, row ∈ A → row.length = n) (hb : b.length = n) :
    ∃ ab, augment A b n = Except.ok ab ∧ ab.length = n ∧
      (∀ row, row ∈ ab → row.length = n + 1) ∧
      (∀ i, i < n → (∀ k, k < n → ent ab i k = ent A i k) ∧ ent ab i n = b.getD i 0) ∧
      regularSLAU A b =
        (forLoop 0 n (regularStep n) ab >>= fun ab1 => backSubstitute ab1 n) ∧
      parallelSLAU sched A b =
        (forLoop 0 n (fun s i => parallelStep n (sched i) s i) ab >>= fun ab1 =>
          backSubstitute ab1 n) := by
  obtain ⟨ab, e, hS, hent⟩ := augment_spec A b n hA hb
  refine ⟨ab, e, hS.1, shape_rows hS, hent, ?_, ?_⟩
  · unfold regularSLAU
    simp only [hA, hb, ne_eq, not_true_eq_false, if_false]
    rw [e, bind_ok]
  · unfold parallelSLAU
    simp only [hA, hb, ne_eq, not_true_eq_false, if_false]
    rw [e, bind_ok]

/-- C14 at `A = [[2,1],[1,3]]`, `b = [3,5]`: the working matrix is `[[2,1,3],[1,3,5]]`. -/
theorem augmented_matrix_witness :
    augment [[2, 1], [1, 3]] [3, 5] 2 = Except.ok [[2, 1, 3], [1, 3, 5]] ∧
      ∃ ab, augment [[2, 1], [1, 3]] [3, 5] 2 = Except.ok ab ∧ ab.length = 2 ∧
        (∀ row, row ∈ ab → row.length = 2 + 1) ∧
        (∀ i, i < 2 → (∀ k, k < 2 → ent ab i k = ent [[2, 1], [1, 3]] i k) ∧
          ent ab i 2 = ([3, 5] : Vec).getD i 0) ∧
        regularSLAU [[2, 1], [1, 3]] [3, 5] =
          (forLoop 0 2 (regularStep 2) ab >>= fun ab1 => backSubstitute ab1 2) ∧
        parallelSLAU (fun _ => []) [[2, 1], [1, 3]] [3, 5] =
          (forLoop 0 2 (fun s i => parallelStep 2 ((fun _ => []) i) s i) ab >>= fun ab1 =>
            backSubstitute ab1 2) :=
  ⟨by decide!,
    augmented_matrix (fun _ => []) [[2, 1], [1, 3]] [3, 5] 2 rfl
      (by intro row hrow; simp at hrow; rcases hrow with h | h <;> rw [h] <;> rfl) rfl⟩

/-- C15: concrete scenario 1. For `A = [[2,1],[1,3]]`, `b = [3,5]` each of the four solvers
returns, without error, `x = [4/5, 7/5]`; the parallel ones do so for every order of their
tasks. -/
theorem scenario_one :
    regularSLAU [[2, 1], [1, 3]] [3, 5] = Except.ok [4 / 5, 7 / 5] ∧
      (∀ sched : Nat → List Nat,
        (∀ i, i < 2 → (sched i).Perm (List.range' (i + 1) (2 - (i + 1)))) →
        parallelSLAU sched [[2, 1], [1, 3]] [3, 5] = Except.ok [4 / 5, 7 / 5]) ∧
      cramerSequential [[2, 1], [1, 3]] [3, 5] = Except.ok [4 / 5, 7 / 5] ∧
      (∀ order : List Nat, order.Perm (List.range 2) →
        cramerParallel order [[2, 1], [1, 3]] [3, 5] = Except.ok [4 / 5, 7 / 5]) := by
  refine ⟨by decide!, ?_, by decide!, ?_⟩
  · intro sched hsched
    rw [parallelSLAU_eq sched [[2, 1], [1, 3]] [3, 5] hsched]
    decide!
  · intro order horder
    rw [cramerParallel_eq order [[2, 1], [1, 3]] [3, 5] horder]
    decide!

/-- C16: when `regularSLAU` passes all `n` pivot steps on an `n × n` matrix `A` and a vector
`b` of length `n`, the working matrix `ab` after the last step is upper-triangular with
unit diagonal: `ab[i][i] = 1` for `i < n` and `ab[r][c] = 0` for `c < r < n`. -/
theorem eliminated_unit_upper_triangular (A : Mat) (b : Vec) (n : Nat) (ab0 ab : Mat)
    (hA : A.length = n) (_hrows : ∀ row, row ∈ A → row.length = n) (hb : b.length = n)
    (h0 : augment A b n = Except.ok ab0)
    (h : forLoop 0 n (regularStep n) ab0 = Except.ok ab) :
    (∀ i, i < n → ent ab i i = 1) ∧ (∀ r c, c < r → r < n → ent ab r c = 0) := by
  obtain ⟨s0, e0, hS0, _⟩ := augment_spec A b n hA hb
  rw [e0] at h0
  cases h0
  rcases eliminate_reduced hS0 with ⟨s, e, hR⟩ | e
  · rw [e] at h
    cases h
    exact ⟨fun i hi => hR.2.2.1 i hi hi, fun r c hcr hr => hR.2.1 r c hr (by omega) hcr⟩
  · rw [e] at h
    cases h

/-- C16 at `A = [[2,1],[1,3]]`, `b = [3,5]`: the loop ends in `[[1,1/2,3/2],[0,1,7/5]]`. -/
theorem eliminated_unit_upper_triangular_witness :
    forLoop 0 2 (regularStep 2) [[2, 1, 3], [1, 3, 5]] =
        Except.ok [[1, 1 / 2, 3 / 2], [0, 1, 7 / 5]] ∧
      (∀ i, i < 2 → ent [[1, 1 / 2, 3 / 2], [0, 1, 7 / 5]] i i = 1) ∧
      (∀ r c, c < r → r < 2 → ent [[1, 1 / 2, 3 / 2], [0, 1, 7 / 5]] r c = 0) :=
  ⟨by decide!,
    eliminated_unit_upper_triangular [[2, 1], [1, 3]] [3, 5] 2 [[2, 1, 3], [1, 3, 5]]
      [[1, 1 / 2, 3 / 2], [0, 1, 7 / 5]] rfl
      (by intro row hrow; simp at hrow; rcases hrow with h | h <;> rw [h] <;> rfl) rfl
      (by decide!) (by decide!)⟩

/-- C17: in pivot step `i` the elimination task of row `j`, `i < j < n`, changes only the
entries of row `j` in the columns `i .. n`: every other row is left as it is, so are the
columns of row `j` before `i`, and `ab[j][k]` becomes `ab[j][k] - ab[j][i] · ab[i][k]` for
`k` in `i .. n`, with the old values of rows `j` and `i` on the right. -/
theorem eliminateRow_frame (n : Nat) (ab : Mat) (i j : Nat) (hS : Shape n (n + 1) ab)
    (hij : i < j) (hj : j < n) :
    ∃ ab1, eliminateRow n i ab j = Except.ok ab1 ∧ ab1.length = n ∧
      (∀ r, r ≠ j → ab1.getD r [] = ab.getD r []) ∧
      (ab1.getD j []).length = n + 1 ∧
      (∀ k, k < i → ent ab1 j k = ent ab j k) ∧
      (∀ k, i ≤ k → k ≤ n → ent ab1 j k = ent ab j k - ent ab j i * ent ab i k) := by
  obtain ⟨ab1, e, hS1, hent⟩ := eliminateRow_spec hS (by omega : i < n) hj (by omega)
  refine ⟨ab1, e, hS1.1, ?_, hS1.2 j hj, ?_, ?_⟩
  · intro r hr
    apply row_ext hS1 hS r
    intro c _
    rw [hent r c, if_neg (fun h => hr h.1)]
  · intro k hk
    rw [hent j k, if_neg (fun h => by omega)]
  · intro k h1 h2
    rw [hent j k, if_pos ⟨rfl, h1, h2⟩]

/-- C17 at the working matrix `[[1,1/2,3/2],[1,3,5]]`, step `0`, row `1`. -/
theorem eliminateRow_frame_witness :
    eliminateRow 2 0 [[1, 1 / 2, 3 / 2], [1, 3, 5]] 1 =
        Except.ok [[1, 1 / 2, 3 / 2], [0, 5 / 2, 7 / 2]] ∧
      ∃ ab1, eliminateRow 2 0 [[1, 1 / 2, 3 / 2], [1, 3, 5]] 1 = Except.ok ab1 ∧
        ab1.length = 2 ∧
        (∀ r, r ≠ 1 → ab1.getD r [] = ([[1, 1 / 2, 3 / 2], [1, 3, 5]] : Mat).getD r []) ∧
        (ab1.getD 1 []).length = 2 + 1 ∧
        (∀ k, k < 0 → ent ab1 1 k = ent [[1, 1 / 2, 3 / 2], [1, 3, 5]] 1 k) ∧
        (∀ k, 0 ≤ k → k ≤ 2 → ent ab1 1 k =
          ent [[1, 1 / 2, 3 / 2], [1, 3, 5]] 1 k -
            ent [[1, 1 / 2, 3 / 2], [1, 3, 5]] 1 0 *
              ent [[1, 1 / 2, 3 / 2], [1, 3, 5]] 0 k) :=
  ⟨by decide!,
    eliminateRow_frame 2 [[1, 1 / 2, 3 / 2], [1, 3, 5]] 0 1
      ⟨rfl, by intro r hr; interval_cases r <;> rfl⟩ (by decide) (by decide)⟩

/-- C18: for the `3 × 3` matrix `M = [[0,1,0],[1,0,0],[0,0,1]]` the function `determinant`,
whose minors take column `k` from parent column `(k+i+1) mod n`, returns `1`, and the same
first-row expansion with skip-column minors gives `-1`: the two rules for the minors are
not equivalent for `n > 2`. -/
theorem cyclic_minors_differ :
    ∃ M : Mat, M.length = 3 ∧ (∀ row, row ∈ M → row.length = 3) ∧
      determinant M = Except.ok 1 ∧ skipExpansion M = -1 ∧
      determinant M ≠ Except.ok (skipExpansion M) := by
  refine ⟨[[0, 1, 0], [1, 0, 0], [0, 0, 1]], rfl, ?_, by decide!, by decide!, by decide!⟩
  intro row hrow
  simp at hrow
  rcases hrow with h | h | h <;> rw [h] <;> rfl

/-- C19: on the empty system the two families disagree. `determinant` of the `0 × 0` matrix
returns `0`, so both Cramer solvers return the no-unique-solution error, and both Gaussian
solvers return the empty solution without error. -/
theorem empty_system :
    determinant [] = Except.ok 0 ∧
      cramerSequential [] [] = Except.error Err.noUniqueSolution ∧
      (∀ order : List Nat, cramerParallel order [] [] = Except.error Err.noUniqueSolution) ∧
      regularSLAU [] [] = Except.ok [] ∧
      (∀ sched : Nat → List Nat, parallelSLAU sched [] [] = Except.ok []) := by
  have hdet : determinant [] = Except.ok 0 := by decide!
  refine ⟨hdet, by decide!, ?_, by decide!, ?_⟩
  · intro order
    unfold cramerParallel
    rw [hdet, bind_ok, if_pos rfl]
    rfl
  · intro sched
    rfl

/-- C20: for `n ≥ 1`, an `n × n` matrix `A` and a vector `b` of length `n`, no fault of the
embedding is reached (a slice index out of range, a division by zero, the recursion budget
of `determinant`): `regularSLAU` returns a vector or the singular-matrix error,
`determinant` and `copyMatrix` return a value, `cramerSequential` returns a vector or the
no-unique-solution error, the task of every index `i < n` returns its entry for every
non-zero `detA`, and a larger recursion budget does not change what `determinant`
returns. -/
theorem no_fault_reached (A : Mat) (b : Vec) (n : Nat) (_hn : 1 ≤ n) (hA : A.length = n)
    (hrows : ∀ row, row ∈ A → row.length = n) (hb : b.length = n) :
    (regularSLAU A b = Except.error Err.singularMatrix ∨ ∃ x, regularSLAU A b = Except.ok x) ∧
      (∃ d, determinant A = Except.ok d ∧
        ∀ fuel, n ≤ fuel → determinantAux fuel A = Except.ok d) ∧
      (∃ M, copyMatrix A = Except.ok M) ∧
      (cramerSequential A b = Except.error Err.noUniqueSolution ∨
        ∃ x, cramerSequential A b = Except.ok x) ∧
      (∀ detA : ℚ, detA ≠ 0 → ∀ i, i < n → ∃ v, cramerEntry A b n detA i = Except.ok v) := by
  have hS : Shape n n A := shape_of_rows hA hrows
  refine ⟨?_, ?_, ?_, ?_, ?_⟩
  · obtain ⟨_, _, _, _, hcase⟩ := regularSLAU_cases A b n hA hb
    rcases hcase with ⟨_, e⟩ | ⟨_, x, _, _, e, _, _⟩
    · exact Or.inl e
    · exact Or.inr ⟨x, e⟩
  · obtain ⟨d, e⟩ := determinant_total hS
    refine ⟨d, e, ?_⟩
    intro fuel hfuel
    rw [← e]
    exact determinantAux_fuel fuel A.length n A hS (by omega) (by omega)
  · obtain ⟨M, e, _⟩ := copyMatrix_spec A
    exact ⟨M, e⟩
  · obtain ⟨detA, _, hiff, hok⟩ := cramerSequential_outcome hS b hb
    by_cases h0 : detA = 0
    · exact Or.inl (hiff.mpr h0)
    · obtain ⟨x, e, _⟩ := hok h0
      exact Or.inr ⟨x, e⟩
  · intro detA hd i hi
    obtain ⟨d, _, e⟩ := cramerEntry_replaceColumn hS b hb detA hd i hi
    exact ⟨_, e⟩

/-- C20 at `A = [[2,1],[1,3]]`, `b = [3,5]`. -/
theorem no_fault_reached_witness :
    (regularSLAU [[2, 1], [1, 3]] [3, 5] = Except.error Err.singularMatrix ∨
        ∃ x, regularSLAU [[2, 1], [1, 3]] [3, 5] = Except.ok x) ∧
      (∃ d, determinant [[2, 1], [1, 3]] = Except.ok d ∧
        ∀ fuel, 2 ≤ fuel → determinantAux fuel [[2, 1], [1, 3]] = Except.ok d) ∧
      (∃ M, copyMatrix [[2, 1], [1, 3]] = Except.ok M) ∧
      (cramerSequential [[2, 1], [1, 3]] [3, 5] = Except.error Err.noUniqueSolution ∨
        ∃ x, cramerSequential [[2, 1], [1, 3]] [3, 5] = Except.ok x) ∧
      (∀ detA : ℚ, detA ≠ 0 → ∀ i, i < 2 →
        ∃ v, cramerEntry [[2, 1], [1, 3]] [3, 5] 2 detA i = Except.ok v) :=
  no_fault_reached [[2, 1], [1, 3]] [3, 5] 2 (by decide) rfl
    (by intro row hrow; simp at hrow; rcases hrow with h | h <;> rw [h] <;> rfl) rfl

end SLE
